import Mathlib

/-!
# Verification of the reactivity core and scheduler

Shallow embedding, in Lean 4, of the dependency-tracking core
(`Dep` / `trackEffect` / `ReactiveEffect.run` / `stop`), the computed-value
cache (`ComputedRefImpl`), the microtask scheduler
(`queueJob` / `findInsertionIndex` / `invalidateJob` / `flushJobs` /
`checkRecursiveUpdates`) and the watcher `traverse` helper.

JavaScript `Map` objects are embedded as insertion-ordered association
lists with pairwise-distinct keys (`Map.set` updates the existing entry in
place or appends a fresh one; `Map.delete` removes the entry; `Map.get`
looks the entry up).  Effects and Deps reference each other, so both live
in arenas keyed by numeric ids, mirroring JS object identity.
-/

namespace VueCore

/-! ## Association lists (JS `Map` semantics)

On key-distinct lists (the only ones reachable, and the only ones a JS
`Map` can denote) these operations agree with `Map.get` / `Map.set` /
`Map.delete`. -/

/-- `Map.get k`. -/
def aget {κ α : Type} [DecidableEq κ] : List (κ × α) → κ → Option α
  | [], _ => none
  | p :: t, k => if p.1 = k then some p.2 else aget t k

/-- `Map.set k v`: update in place (JS `Map` keeps the insertion position
of an existing key), append when absent. -/
def aset {κ α : Type} [DecidableEq κ] : List (κ × α) → κ → α → List (κ × α)
  | [], k, v => [(k, v)]
  | p :: t, k, v => if p.1 = k then (k, v) :: t else p :: aset t k v

/-- `Map.delete k`. -/
def adel {κ α : Type} [DecidableEq κ] : List (κ × α) → κ → List (κ × α)
  | [], _ => []
  | p :: t, k => if p.1 = k then adel t k else p :: adel t k

/-- Keys of an association list. -/
def akeys {κ α : Type} (l : List (κ × α)) : List κ := l.map (·.1)

/-- A JS `Map` never holds two entries with the same key. -/
def KeysDistinct {κ α : Type} (l : List (κ × α)) : Prop :=
  l.Pairwise (fun p q => p.1 ≠ q.1)

instance {κ α : Type} [DecidableEq κ] (l : List (κ × α)) :
    Decidable (KeysDistinct l) := by
  unfold KeysDistinct; infer_instance

theorem aget_aset_self {κ α : Type} [DecidableEq κ] (l : List (κ × α))
    (k : κ) (v : α) : aget (aset l k v) k = some v := by
  induction l with
  | nil => simp [aget, aset]
  | cons p t ih =>
    by_cases h : p.1 = k
    · simp [aget, aset, h]
    · simp [aget, aset, h, ih]

theorem aget_aset_ne {κ α : Type} [DecidableEq κ] (l : List (κ × α))
    (k k' : κ) (v : α) (hne : k ≠ k') :
    aget (aset l k v) k' = aget l k' := by
  induction l with
  | nil => simp [aget, aset, hne]
  | cons p t ih =>
    by_cases h : p.1 = k
    · have hpk : ¬ p.1 = k' := by rw [h]; exact hne
      simp only [aset, if_pos h, aget, if_neg hne, if_neg hpk]
    · by_cases h' : p.1 = k'
      · simp only [aset, if_neg h, aget, if_pos h']
      · simp only [aset, if_neg h, aget, if_neg h', ih]

theorem aget_adel_self {κ α : Type} [DecidableEq κ] (l : List (κ × α))
    (k : κ) : aget (adel l k) k = none := by
  induction l with
  | nil => simp [aget, adel]
  | cons p t ih =>
    by_cases h : p.1 = k
    · simp [adel, h, ih]
    · simp [aget, adel, h, ih]

theorem aget_adel_ne {κ α : Type} [DecidableEq κ] (l : List (κ × α))
    (k k' : κ) (hne : k ≠ k') :
    aget (adel l k) k' = aget l k' := by
  induction l with
  | nil => simp [adel]
  | cons p t ih =>
    by_cases h : p.1 = k
    · have hpk : ¬ p.1 = k' := by rw [h]; exact hne
      simp only [adel, if_pos h, ih, aget, if_neg hpk]
    · by_cases h' : p.1 = k'
      · simp only [adel, if_neg h, aget, if_pos h']
      · simp only [adel, if_neg h, aget, if_neg h', ih]

theorem mem_akeys_aset {κ α : Type} [DecidableEq κ] (l : List (κ × α))
    (k k' : κ) (v : α) :
    k' ∈ akeys (aset l k v) ↔ k' = k ∨ k' ∈ akeys l := by
  induction l with
  | nil => simp [aset, akeys]
  | cons p t ih =>
    by_cases h : p.1 = k
    · subst h
      simp only [aset, eq_self_iff_true, if_true, akeys, List.map_cons,
        List.mem_cons]
      tauto
    · simp only [aset, if_neg h, akeys, List.map_cons, List.mem_cons]
      simp only [akeys] at ih
      tauto

theorem mem_of_mem_adel {κ α : Type} [DecidableEq κ] {l : List (κ × α)}
    {k : κ} {q : κ × α} (h : q ∈ adel l k) : q ∈ l := by
  induction l with
  | nil => simp [adel] at h
  | cons p t ih =>
    by_cases hk : p.1 = k
    · simp only [adel, if_pos hk] at h
      exact List.mem_cons_of_mem _ (ih h)
    · simp only [adel, if_neg hk, List.mem_cons] at h
      rcases h with h | h
      · exact h ▸ List.mem_cons_self _ _
      · exact List.mem_cons_of_mem _ (ih h)

theorem keysDistinct_aset {κ α : Type} [DecidableEq κ] (l : List (κ × α))
    (k : κ) (v : α) (h : KeysDistinct l) : KeysDistinct (aset l k v) := by
  induction l with
  | nil => simp [aset, KeysDistinct]
  | cons p t ih =>
    rcases (List.pairwise_cons.mp h) with ⟨hp, ht⟩
    by_cases hk : p.1 = k
    · subst hk
      simp only [aset, if_pos rfl]
      exact List.pairwise_cons.mpr ⟨fun q hq => hp q hq, ht⟩
    · simp only [aset, if_neg hk]
      refine List.pairwise_cons.mpr ⟨?_, ih ht⟩
      intro q hq
      have hmem : q.1 ∈ akeys (aset t k v) := List.mem_map_of_mem _ hq
      rcases (mem_akeys_aset t k q.1 v).mp hmem with h1 | h1
      · exact fun hc => hk (by rw [hc, h1])
      · obtain ⟨r, hr, hr1⟩ := List.mem_map.mp h1
        exact fun hc => (hp r hr) (by rw [hc, ← hr1])

theorem keysDistinct_adel {κ α : Type} [DecidableEq κ] (l : List (κ × α))
    (k : κ) (h : KeysDistinct l) : KeysDistinct (adel l k) := by
  induction l with
  | nil => simp [adel, KeysDistinct]
  | cons p t ih =>
    rcases (List.pairwise_cons.mp h) with ⟨hp, ht⟩
    by_cases hk : p.1 = k
    · simpa [adel, hk] using ih ht
    · simp only [adel, if_neg hk]
      refine List.pairwise_cons.mpr ⟨?_, ih ht⟩
      intro q hq
      exact hp q (mem_of_mem_adel hq)

/-! ## Scheduler (`packages/runtime-core/src/scheduler.ts`)

A `SchedulerJob` is a JS function object carrying optional scheduling
metadata.  `key` stands for the function's identity (JS `===`, used by
`Array.includes` / `Array.indexOf`); `id` is the optional numeric job id
(`null` is embedded as `none` and compared as `Infinity` by `getId`);
`active` is the optional `active` flag (`none` = the property is absent,
and `job.active !== false` holds). -/

structure SJob where
  key : Nat
  id : Option Nat
  pre : Bool
  allowRecurse : Bool
  active : Option Bool
deriving DecidableEq, Repr, Inhabited

/-- `invalidateJob(job)`: `const i = queue.indexOf(job); if (i > flushIndex)
queue.splice(i, 1)`.  `Array.indexOf` yields the first occurrence or `-1`
(embedded as `none`, for which `-1 > flushIndex` is false). -/
def invalidateJob (queue : List SJob) (flushIndex : Nat) (job : SJob) :
    List SJob :=
  match queue.findIdx? (fun x => x == job) with
  | some i => if flushIndex < i then queue.eraseIdx i else queue
  | none => queue

/-- `getId(job)`: `job.id == null ? Infinity : job.id`.  We keep the
`Option`; comparisons spell out the `Infinity` cases. -/
def getId (job : SJob) : Option Nat := job.id

/-- `findInsertionIndex`'s binary-search loop body:
`while (start < end) { middle = (start + end) >>> 1; ... }`.
The probe `middleJobId < id || (middleJobId === id && middleJob.pre)`
is false when `middleJobId` is `Infinity` (a `null` id). -/
def midProbe (id : Nat) (middleJob : SJob) : Bool :=
  match middleJob.id with
  | some mid => decide (mid < id) || (decide (mid = id) && middleJob.pre)
  | none => false

def bsearchGo (queue : List SJob) (id : Nat) : Nat → Nat → Nat
  | start, stop =>
    if h : start < stop then
      let middle := (start + stop) / 2
      let middleJob := queue.getD middle default
      if midProbe id middleJob then
        bsearchGo queue id (middle + 1) stop
      else
        bsearchGo queue id start middle
    else
      start
termination_by start stop => stop - start
decreasing_by
  · omega
  · omega

/-- `findInsertionIndex(id)`: binary search starting at `flushIndex + 1`
and ending at `queue.length`. -/
def findInsertionIndex (queue : List SJob) (flushIndex : Nat) (id : Nat) :
    Nat :=
  bsearchGo queue id (flushIndex + 1) queue.length

/-- Start of the dedup window of `queueJob`:
`isFlushing && job.allowRecurse ? flushIndex + 1 : flushIndex`. -/
def dedupWindowStart (flushIndex : Nat) (isFlushing : Bool) (job : SJob) :
    Nat :=
  if isFlushing ∧ job.allowRecurse then flushIndex + 1 else flushIndex

/-- `queue.splice(i, 0, job)`: JS clamps a start index beyond the length
to the length, so a too-large index appends (Lean's `insertIdx` would
instead leave the list unchanged). -/
def spliceInsert (queue : List SJob) (i : Nat) (job : SJob) : List SJob :=
  queue.insertIdx (min i queue.length) job

/-- `queueJob(job)`: dedup with `queue.includes(job, start)` (`start` =
`dedupWindowStart`, and `Array.includes` with a start index searches the
drop of the list); on insertion a `null`-id job is pushed at the tail and
a numeric-id job is spliced at `findInsertionIndex(job.id)`. -/
def queueJob (queue : List SJob) (flushIndex : Nat) (isFlushing : Bool)
    (job : SJob) : List SJob :=
  if queue.length = 0 ∨
      ¬ job ∈ queue.drop (dedupWindowStart flushIndex isFlushing job) then
    match job.id with
    | none => queue ++ [job]
    | some id => spliceInsert queue (findInsertionIndex queue flushIndex id) job
  else
    queue

/-! ### C8: `invalidateJob` semantics -/

/-- C8.  `invalidateJob(j)` removes `j` from the queue iff the (first)
index of `j` in the queue is strictly greater than `flushIndex`, in which
case exactly that entry disappears and the rest of the queue is unchanged;
a job located at `flushIndex` or earlier, or not present at all, leaves
the queue unchanged. -/
theorem invalidateJob_spec (queue : List SJob) (flushIndex : Nat)
    (job : SJob) :
    (∀ i, queue.findIdx? (fun x => x == job) = some i →
      (flushIndex < i →
        invalidateJob queue flushIndex job
          = queue.take i ++ queue.drop (i + 1)) ∧
      (i ≤ flushIndex → invalidateJob queue flushIndex job = queue)) ∧
    (queue.findIdx? (fun x => x == job) = none →
      invalidateJob queue flushIndex job = queue) := by
  constructor
  · intro i hi
    constructor
    · intro hlt
      simp only [invalidateJob, hi, if_pos hlt]
      exact List.eraseIdx_eq_take_drop_succ queue i
    · intro hle
      simp only [invalidateJob, hi, if_neg (by omega : ¬ flushIndex < i)]
  · intro hnone
    simp only [invalidateJob, hnone]

theorem invalidateJob_spec_witness :
    invalidateJob
        [⟨0, none, false, false, none⟩, ⟨1, none, false, false, none⟩] 0
        ⟨1, none, false, false, none⟩
      = [⟨0, none, false, false, none⟩] ∧
    invalidateJob
        [⟨0, none, false, false, none⟩, ⟨1, none, false, false, none⟩] 1
        ⟨1, none, false, false, none⟩
      = [⟨0, none, false, false, none⟩, ⟨1, none, false, false, none⟩] := by
  constructor
  · have h := ((invalidateJob_spec
        [⟨0, none, false, false, none⟩, ⟨1, none, false, false, none⟩] 0
        ⟨1, none, false, false, none⟩).1 1 (by decide)).1 (by decide)
    rw [h]; rfl
  · have h := ((invalidateJob_spec
        [⟨0, none, false, false, none⟩, ⟨1, none, false, false, none⟩] 1
        ⟨1, none, false, false, none⟩).1 1 (by decide)).2 (by decide)
    rw [h]

/-! ### C5: `queueJob` semantics -/

/-- The queue order maintained by the scheduler: ascending `getId` with a
`null` id as `Infinity`, and `pre` before non-`pre` at equal numeric id
(`comparator(a, b) <= 0`; for two `null` ids the comparator evaluates
`Infinity - Infinity`, i.e. `NaN`, which sorts as `0`, so such jobs are
unordered relative to each other). -/
def jobLeB (a b : SJob) : Bool :=
  match a.id, b.id with
  | none, none => true
  | none, some _ => false
  | some _, none => true
  | some x, some y =>
      decide (x < y) || (decide (x = y) && !(!a.pre && b.pre))

/-- The relation claimed for the insertion point: queue entry `e` is
`>=` job `j`'s `(id, pre)` tuple in the lexicographic order (`id`
ascending, `null` = `Infinity`; `pre` before non-`pre` at equal id). -/
def tupleGeB (e j : SJob) : Bool :=
  match e.id, j.id with
  | none, none => j.pre || !e.pre
  | none, some _ => true
  | some _, none => false
  | some ei, some ji =>
      decide (ji < ei) || (decide (ei = ji) && (j.pre || !e.pre))

/-- First queue index whose entry is `>=` the job's `(id, pre)` tuple
(the insertion point the claim describes; `Array.findIndex` style, the
length when no entry qualifies). -/
def firstGeIdx (queue : List SJob) (j : SJob) : Nat :=
  queue.findIdx (fun e => tupleGeB e j)

/-- C5, counterexample.  With an idle scheduler (`flushIndex = 0`, not
flushing) and `queue = [{id: 5}]`, `queueJob({id: 1})` splices at index 1
— the binary search starts at `flushIndex + 1 = 1`, never examining index
0 — although the first (and only) index whose entry is `>=` the job's
`(id, pre)` tuple is 0.  The resulting queue `[{id: 5}, {id: 1}]` is not
ordered by id. -/
theorem queueJob_splice_counterexample :
    queueJob [⟨0, some 5, false, false, none⟩] 0 false
        ⟨1, some 1, false, false, none⟩
      = [⟨0, some 5, false, false, none⟩, ⟨1, some 1, false, false, none⟩] ∧
    firstGeIdx [⟨0, some 5, false, false, none⟩]
        ⟨1, some 1, false, false, none⟩ = 0 ∧
    queueJob [⟨0, some 5, false, false, none⟩] 0 false
        ⟨1, some 1, false, false, none⟩
      ≠ spliceInsert [⟨0, some 5, false, false, none⟩] 0
          ⟨1, some 1, false, false, none⟩ ∧
    ¬ (queueJob [⟨0, some 5, false, false, none⟩] 0 false
        ⟨1, some 1, false, false, none⟩).Pairwise
          (fun a b => jobLeB a b = true) := by
  have hb : bsearchGo [⟨0, some 5, false, false, none⟩] 1 1 1 = 1 := by
    unfold bsearchGo
    simp
  have hq : queueJob [⟨0, some 5, false, false, none⟩] 0 false
      ⟨1, some 1, false, false, none⟩
      = [⟨0, some 5, false, false, none⟩, ⟨1, some 1, false, false, none⟩] := by
    simp only [queueJob, findInsertionIndex, List.length_cons,
      List.length_nil, hb, spliceInsert, dedupWindowStart]
    simp [List.insertIdx]
  refine ⟨hq, by decide, ?_, ?_⟩
  · rw [hq]; decide
  · rw [hq]; decide

theorem bsearchGo_unfold (queue : List SJob) (id start stop : Nat) :
    bsearchGo queue id start stop =
      if start < stop then
        (if midProbe id (queue.getD ((start + stop) / 2) default) then
          bsearchGo queue id ((start + stop) / 2 + 1) stop
        else
          bsearchGo queue id start ((start + stop) / 2))
      else start := by
  conv_lhs => unfold bsearchGo
  split
  · rfl
  · rfl

/-- The queue order makes the binary-search probe downward closed. -/
theorem jobLeB_midProbe {id : Nat} {a b : SJob} (hle : jobLeB a b = true)
    (hp : midProbe id b = true) : midProbe id a = true := by
  rcases hb : b.id with _ | y
  · simp [midProbe, hb] at hp
  · rcases ha : a.id with _ | x
    · simp [jobLeB, ha, hb] at hle
    · simp only [midProbe, hb] at hp
      simp only [midProbe, ha]
      simp only [jobLeB, ha, hb] at hle
      rcases Nat.lt_trichotomy x id with h | h | h <;>
        rcases Nat.lt_trichotomy x y with h2 | h2 | h2 <;>
        cases hap : a.pre <;> cases hbp : b.pre <;>
        simp_all <;> omega

/-- An entry the probe accepts sorts no later than the job itself. -/
theorem midProbe_jobLeB {id : Nat} {job e : SJob} (hjob : job.id = some id)
    (hp : midProbe id e = true) : jobLeB e job = true := by
  rcases he : e.id with _ | x
  · simp [midProbe, he] at hp
  · simp only [midProbe, he] at hp
    simp only [jobLeB, he, hjob]
    rcases Nat.lt_trichotomy x id with h | h | h <;>
      cases hep : e.pre <;> simp_all

/-- The job sorts no later than any entry the probe rejects. -/
theorem not_midProbe_jobLeB {id : Nat} {job e : SJob} (hjob : job.id = some id)
    (hp : midProbe id e = false) : jobLeB job e = true := by
  rcases he : e.id with _ | x
  · simp [jobLeB, hjob, he]
  · simp only [midProbe, he] at hp
    simp only [jobLeB, hjob, he]
    rcases Nat.lt_trichotomy x id with h | h | h <;>
      cases hep : e.pre <;> simp_all

theorem insertIdx_eq_take_cons_drop {α : Type} (a : α) :
    ∀ (n : Nat) (l : List α), n ≤ l.length →
      l.insertIdx n a = l.take n ++ a :: l.drop n := by
  intro n
  induction n with
  | zero => intro l _; simp [List.insertIdx_zero]
  | succ m ih =>
    intro l hl
    cases l with
    | nil => simp at hl
    | cons x xs =>
      simp only [List.insertIdx_succ_cons, List.take_succ_cons,
        List.drop_succ_cons, List.cons_append, List.cons.injEq, true_and]
      exact ih xs (by simpa using hl)

/-- Loop invariant of `findInsertionIndex`'s binary search: on a window
over which the probe is downward closed, the search returns the first
index of the window at which the probe fails. -/
theorem bsearchGo_spec (queue : List SJob) (id : Nat) :
    ∀ fuel start stop, stop - start ≤ fuel → start ≤ stop →
      (∀ i j, start ≤ i → i ≤ j → j < stop →
          midProbe id (queue.getD j default) = true →
          midProbe id (queue.getD i default) = true) →
      start ≤ bsearchGo queue id start stop ∧
      bsearchGo queue id start stop ≤ stop ∧
      (∀ i, start ≤ i → i < bsearchGo queue id start stop →
          midProbe id (queue.getD i default) = true) ∧
      (∀ i, bsearchGo queue id start stop ≤ i → i < stop →
          midProbe id (queue.getD i default) = false) := by
  intro fuel
  induction fuel with
  | zero =>
    intro start stop hf hle hmono
    have hstop : ¬ start < stop := by omega
    rw [bsearchGo_unfold, if_neg hstop]
    refine ⟨Nat.le_refl _, hle, ?_, ?_⟩
    · intro i h1 h2; exact absurd h2 (by omega)
    · intro i h1 h2; exact absurd h2 (by omega)
  | succ n ih =>
    intro start stop hf hle hmono
    by_cases h : start < stop
    · rw [bsearchGo_unfold, if_pos h]
      have hms : start ≤ (start + stop) / 2 := by omega
      have hme : (start + stop) / 2 < stop := by omega
      cases hp : midProbe id (queue.getD ((start + stop) / 2) default) with
      | false =>
        rw [if_neg Bool.false_ne_true]
        obtain ⟨r1, r2, r3, r4⟩ :=
          ih start ((start + stop) / 2) (by omega) (by omega)
            (fun i j a b c hP => hmono i j a b (by omega) hP)
        refine ⟨r1, by omega, r3, ?_⟩
        intro i hi1 hi2
        by_cases him : i < (start + stop) / 2
        · exact r4 i hi1 him
        · cases hq : midProbe id (queue.getD i default) with
          | false => rfl
          | true =>
            have hcontra := hmono ((start + stop) / 2) i hms (by omega) hi2 hq
            rw [hp] at hcontra
            exact absurd hcontra (by decide)
      | true =>
        rw [if_pos rfl]
        obtain ⟨r1, r2, r3, r4⟩ :=
          ih ((start + stop) / 2 + 1) stop (by omega) (by omega)
            (fun i j a b c hP => hmono i j (by omega) b c hP)
        refine ⟨by omega, r2, ?_, r4⟩
        intro i hi1 hi2
        by_cases him : (start + stop) / 2 + 1 ≤ i
        · exact r3 i him hi2
        · exact hmono i ((start + stop) / 2) hi1 (by omega) hme hp
    · rw [bsearchGo_unfold, if_neg h]
      refine ⟨Nat.le_refl _, hle, ?_, ?_⟩
      · intro i h1 h2; exact absurd h2 (by omega)
      · intro i h1 h2; exact absurd h2 (by omega)

/-- A sorted suffix of the queue, read through `getD`. -/
theorem pairwise_drop_getD (queue : List SJob) (s : Nat)
    (hsorted : (queue.drop s).Pairwise (fun a b => jobLeB a b = true)) :
    ∀ i j, s ≤ i → i < j → j < queue.length →
      jobLeB (queue.getD i default) (queue.getD j default) = true := by
  intro i j hi hij hj
  have hi' : i - s < (queue.drop s).length := by rw [List.length_drop]; omega
  have hj' : j - s < (queue.drop s).length := by rw [List.length_drop]; omega
  have hrel := List.pairwise_iff_getElem.mp hsorted (i - s) (j - s) hi' hj'
    (by omega)
  have e1 : (queue.drop s)[i - s] = queue.getD i default := by
    rw [List.getElem_drop]
    have hidx : s + (i - s) = i := by omega
    simp only [hidx]
    rw [List.getD_eq_getElem queue default (by omega)]
  have e2 : (queue.drop s)[j - s] = queue.getD j default := by
    rw [List.getElem_drop]
    have hidx : s + (j - s) = j := by omega
    simp only [hidx]
    rw [List.getD_eq_getElem queue default (by omega)]
  rw [e1, e2] at hrel
  exact hrel

/-- C5, amended.  `queueJob(job)` inserts `job` only if it is not already
present in the queue at or after the dedup window start (`flushIndex + 1`
when flushing and `job.allowRecurse` is set, `flushIndex` otherwise).  On
insertion a `null`-id job is appended at the tail; a numeric-id job is
spliced at the position found by a binary search **over the part of the
queue after `flushIndex`** (the search never examines positions
`<= flushIndex`): provided that part is ordered, the splice position is
the first index at or after `flushIndex + 1` whose entry has a larger id,
an equal id with `pre` unset, or a `null` id — i.e. is `>=` the tuple
`(job.id, pre = false)` — and that part of the queue stays ordered.  When
the queue ends at or before `flushIndex` the job is appended at the
tail. -/
theorem queueJob_spec (queue : List SJob) (flushIndex : Nat)
    (isFlushing : Bool) (job : SJob)
    (hsorted : (queue.drop (flushIndex + 1)).Pairwise
        (fun a b => jobLeB a b = true)) :
    (job ∈ queue.drop (dedupWindowStart flushIndex isFlushing job) →
      queueJob queue flushIndex isFlushing job = queue) ∧
    (job ∉ queue.drop (dedupWindowStart flushIndex isFlushing job) →
      job.id = none →
      queueJob queue flushIndex isFlushing job = queue ++ [job]) ∧
    (∀ id, job ∉ queue.drop (dedupWindowStart flushIndex isFlushing job) →
      job.id = some id →
      (queue.length < flushIndex + 1 →
        queueJob queue flushIndex isFlushing job = queue ++ [job]) ∧
      (flushIndex + 1 ≤ queue.length → ∃ p,
        p = findInsertionIndex queue flushIndex id ∧
        queueJob queue flushIndex isFlushing job
          = queue.take p ++ job :: queue.drop p ∧
        flushIndex + 1 ≤ p ∧ p ≤ queue.length ∧
        (∀ i, flushIndex + 1 ≤ i → i < p →
          midProbe id (queue.getD i default) = true) ∧
        (∀ i, p ≤ i → i < queue.length →
          midProbe id (queue.getD i default) = false) ∧
        ((queue.take p ++ job :: queue.drop p).drop (flushIndex + 1)).Pairwise
          (fun a b => jobLeB a b = true))) := by
  refine ⟨?_, ?_, ?_⟩
  · intro hmem
    have hlen : queue.length ≠ 0 := by
      intro h0
      rw [List.length_eq_zero] at h0
      subst h0
      simp at hmem
    simp only [queueJob]
    rw [if_neg (by push_neg; exact ⟨hlen, hmem⟩)]
  · intro hnmem hid
    simp only [queueJob]
    rw [if_pos (Or.inr hnmem), hid]
  · intro id hnmem hid
    constructor
    · intro hshort
      have hfii : findInsertionIndex queue flushIndex id = flushIndex + 1 := by
        unfold findInsertionIndex
        rw [bsearchGo_unfold, if_neg (by omega)]
      simp only [queueJob]
      rw [if_pos (Or.inr hnmem), hid]
      simp only [hfii, spliceInsert]
      rw [Nat.min_eq_right (by omega)]
      exact List.insertIdx_length_self queue job
    · intro hlong
      have hmono : ∀ i j, flushIndex + 1 ≤ i → i ≤ j → j < queue.length →
          midProbe id (queue.getD j default) = true →
          midProbe id (queue.getD i default) = true := by
        intro i j h1 h2 h3 hP
        rcases Nat.eq_or_lt_of_le h2 with rfl | hlt
        · exact hP
        · exact jobLeB_midProbe
            (pairwise_drop_getD queue (flushIndex + 1) hsorted i j h1 hlt h3) hP
      obtain ⟨r1, r2, r3, r4⟩ := bsearchGo_spec queue id
        (queue.length - (flushIndex + 1)) (flushIndex + 1) queue.length
        (by omega) (by omega) hmono
      have hpdef : findInsertionIndex queue flushIndex id
          = bsearchGo queue id (flushIndex + 1) queue.length := rfl
      refine ⟨findInsertionIndex queue flushIndex id, rfl, ?_, ?_, ?_, ?_, ?_, ?_⟩
      · simp only [queueJob]
        rw [if_pos (Or.inr hnmem), hid]
        simp only [spliceInsert, hpdef]
        rw [Nat.min_eq_left r2]
        exact insertIdx_eq_take_cons_drop job _ queue r2
      · rw [hpdef]; exact r1
      · rw [hpdef]; exact r2
      · rw [hpdef]; exact r3
      · rw [hpdef]; exact r4
      · -- the post-`flushIndex` part of the result stays ordered
        rw [hpdef]
        set p := bsearchGo queue id (flushIndex + 1) queue.length with hpp
        have htlen : (queue.take p).length = p := by
          rw [List.length_take]
          omega
        rw [List.drop_append_of_le_length (by omega)]
        rw [List.drop_take]
        have hdp : queue.drop p
            = (queue.drop (flushIndex + 1)).drop (p - (flushIndex + 1)) := by
          rw [List.drop_drop]
          congr 1
          omega
        rw [hdp]
        -- elements of the kept prefix probe true, elements of the kept
        -- suffix probe false
        have hpre : ∀ a ∈ (queue.drop (flushIndex + 1)).take
            (p - (flushIndex + 1)), midProbe id a = true := by
          intro a ha
          obtain ⟨n, hn, rfl⟩ := List.mem_iff_getElem.mp ha
          have hn' : n < p - (flushIndex + 1) := by
            have := hn
            rw [List.length_take, List.length_drop] at this
            omega
          have hn2 : n < (queue.drop (flushIndex + 1)).length := by
            rw [List.length_drop]; omega
          rw [List.getElem_take, List.getElem_drop]
          have hbd : flushIndex + 1 + n < queue.length := by
            rw [List.length_drop] at hn2
            omega
          have hgd : queue.getD (flushIndex + 1 + n) default
              = queue[flushIndex + 1 + n] :=
            List.getD_eq_getElem queue default hbd
          rw [← hgd]
          exact r3 (flushIndex + 1 + n) (by omega) (by omega)
        have hsuf : ∀ b ∈ (queue.drop (flushIndex + 1)).drop
            (p - (flushIndex + 1)), midProbe id b = false := by
          intro b hb
          obtain ⟨n, hn, rfl⟩ := List.mem_iff_getElem.mp hb
          have hn' : n < queue.length - p := by
            have := hn
            rw [List.length_drop, List.length_drop] at this
            omega
          rw [List.getElem_drop, List.getElem_drop]
          have hbd : flushIndex + 1 + (p - (flushIndex + 1) + n)
              < queue.length := by omega
          have hgd : queue.getD (flushIndex + 1 + (p - (flushIndex + 1) + n))
              default
              = queue[flushIndex + 1 + (p - (flushIndex + 1) + n)] :=
            List.getD_eq_getElem queue default hbd
          rw [← hgd]
          exact r4 (flushIndex + 1 + (p - (flushIndex + 1) + n)) (by omega)
            (by omega)
        refine List.pairwise_append.mpr ⟨?_, ?_, ?_⟩
        · exact hsorted.sublist (List.take_sublist _ _)
        · refine List.pairwise_cons.mpr ⟨?_, ?_⟩
          · intro b hb
            exact not_midProbe_jobLeB hid (hsuf b hb)
          · exact hsorted.sublist (List.drop_sublist _ _)
        · intro a ha b hb
          rcases List.mem_cons.mp hb with rfl | hb
          · exact midProbe_jobLeB hid (hpre a ha)
          · have hsplit := List.pairwise_append.mp
              (by rw [List.take_append_drop
                  (p - (flushIndex + 1)) (queue.drop (flushIndex + 1))]
                  exact hsorted)
            exact hsplit.2.2 a ha b hb

theorem queueJob_spec_witness :
    queueJob [⟨0, some 2, false, false, none⟩, ⟨1, some 4, false, false, none⟩]
        0 true ⟨2, some 3, false, true, none⟩
      = [⟨0, some 2, false, false, none⟩, ⟨2, some 3, false, true, none⟩,
         ⟨1, some 4, false, false, none⟩] := by
  obtain ⟨p, hp, heq, h1, h2, h3, h4, h5⟩ :=
    ((queueJob_spec
        [⟨0, some 2, false, false, none⟩, ⟨1, some 4, false, false, none⟩]
        0 true ⟨2, some 3, false, true, none⟩ (by decide)).2.2 3
      (by decide) rfl).2 (by decide)
  rw [heq]
  have hprobe : midProbe 3
      ([⟨0, some 2, false, false, none⟩,
        ⟨1, some 4, false, false, none⟩].getD 1 default) = false := by decide
  have hp1 : p = 1 := by
    by_cases hc : 1 < p
    · have hT := h3 1 (by omega) hc
      rw [hT] at hprobe
      exact absurd hprobe (by decide)
    · omega
  subst hp1
  rfl

/-! ### C6: flush ordering -/

/-- The sort comparator of `flushJobs`:
`diff = getId(a) - getId(b); if (diff === 0) { pre checks }; return diff`.
Only the sign of the result matters to `Array.prototype.sort`, so the
infinite differences are embedded as `1` / `-1`; `Infinity - Infinity` is
`NaN`, which is not `=== 0` and which `SortCompare` coerces to `+0`, so
two `null` ids compare as `0` with no `pre` tie-break. -/
def comparator (a b : SJob) : Int :=
  match getId a, getId b with
  | none, none => 0
  | none, some _ => 1
  | some _, none => -1
  | some x, some y =>
    if x = y then
      (if a.pre ∧ ¬ b.pre then -1 else if b.pre ∧ ¬ a.pre then 1 else 0)
    else (x : Int) - (y : Int)

/-- `queue.sort(comparator)`: ECMAScript requires the result to be sorted
by the comparator and the sort to be stable, which for a consistent
comparator determines it uniquely; realized here as a stable insertion
sort. -/
def sortInsert (x : SJob) : List SJob → List SJob
  | [] => [x]
  | y :: ys => if comparator y x ≤ 0 then y :: sortInsert x ys else x :: y :: ys

def sortQueue (queue : List SJob) : List SJob :=
  queue.foldl (fun acc x => sortInsert x acc) []

/-- The jobs `flushJobs` actually invokes, in order: the walk over the
sorted queue runs every job with `job && job.active !== false`. -/
def flushInvocationOrder (queue : List SJob) : List SJob :=
  (sortQueue queue).filter (fun j => ! (j.active == some false))

theorem comparator_le_iff (a b : SJob) :
    comparator a b ≤ 0 ↔ jobLeB a b = true := by
  rcases ha : a.id with _ | x <;> rcases hb : b.id with _ | y <;>
    simp only [comparator, jobLeB, getId, ha, hb]
  · simp
  · simp
  · simp
  · rcases Nat.lt_trichotomy x y with h | h | h
    · rw [if_neg (by omega : ¬ x = y)]
      simp only [Bool.or_eq_true, decide_eq_true_eq, Bool.and_eq_true]
      constructor
      · intro
        exact Or.inl h
      · intro
        omega
    · subst h
      rw [if_pos rfl]
      cases hap : a.pre <;> cases hbp : b.pre <;> simp_all
    · rw [if_neg (by omega : ¬ x = y)]
      simp only [Bool.or_eq_true, decide_eq_true_eq, Bool.and_eq_true]
      constructor
      · intro hc
        exfalso
        omega
      · intro hc
        rcases hc with hc | ⟨hc, _⟩ <;> omega

theorem comparator_total (a b : SJob) :
    comparator a b ≤ 0 ∨ comparator b a ≤ 0 := by
  rcases ha : a.id with _ | x <;> rcases hb : b.id with _ | y <;>
    simp only [comparator, getId, ha, hb]
  · simp
  · simp
  · simp
  · by_cases hxy : x = y
    · subst hxy
      simp only [if_pos rfl]
      cases hap : a.pre <;> cases hbp : b.pre <;> simp_all
    · rw [if_neg hxy, if_neg (Ne.symm hxy)]
      omega

theorem jobLeB_trans {a b c : SJob} (h1 : jobLeB a b = true)
    (h2 : jobLeB b c = true) : jobLeB a c = true := by
  rcases ha : a.id with _ | x <;> rcases hb : b.id with _ | y <;>
    rcases hc : c.id with _ | z <;>
    simp only [jobLeB, ha, hb, hc] at h1 h2 ⊢
  all_goals try exact absurd h1 (by decide)
  all_goals try exact absurd h2 (by decide)
  simp only [Bool.or_eq_true, decide_eq_true_eq, Bool.and_eq_true] at h1 h2 ⊢
  rcases h1 with h1 | ⟨e1, p1⟩ <;> rcases h2 with h2 | ⟨e2, p2⟩
  · exact Or.inl (by omega)
  · exact Or.inl (by omega)
  · exact Or.inl (by omega)
  · refine Or.inr ⟨by omega, ?_⟩
    cases hap : a.pre <;> cases hbp : b.pre <;> cases hcp : c.pre <;>
      simp_all

theorem mem_sortInsert {z x : SJob} : ∀ {l : List SJob},
    z ∈ sortInsert x l ↔ z = x ∨ z ∈ l := by
  intro l
  induction l with
  | nil => simp [sortInsert]
  | cons y ys ih =>
    by_cases h : comparator y x ≤ 0
    · simp only [sortInsert, if_pos h, List.mem_cons, ih]
      try tauto
    · simp only [sortInsert, if_neg h, List.mem_cons]
      try tauto

theorem sortInsert_pairwise (x : SJob) :
    ∀ (l : List SJob), l.Pairwise (fun a b => jobLeB a b = true) →
      (sortInsert x l).Pairwise (fun a b => jobLeB a b = true) := by
  intro l
  induction l with
  | nil => simp [sortInsert]
  | cons y ys ih =>
    intro hp
    rcases List.pairwise_cons.mp hp with ⟨hy, hys⟩
    by_cases h : comparator y x ≤ 0
    · simp only [sortInsert, if_pos h]
      refine List.pairwise_cons.mpr ⟨?_, ih hys⟩
      intro z hz
      rcases mem_sortInsert.mp hz with rfl | hz
      · exact (comparator_le_iff y z).mp h
      · exact hy z hz
    · simp only [sortInsert, if_neg h]
      have hxy : jobLeB x y = true := by
        rcases comparator_total y x with hc | hc
        · exact absurd hc h
        · exact (comparator_le_iff x y).mp hc
      refine List.pairwise_cons.mpr ⟨?_, hp⟩
      intro z hz
      rcases List.mem_cons.mp hz with rfl | hz
      · exact hxy
      · exact jobLeB_trans hxy (hy z hz)

theorem sortInsert_perm (x : SJob) (l : List SJob) :
    (sortInsert x l).Perm (x :: l) := by
  induction l with
  | nil => simp [sortInsert]
  | cons y ys ih =>
    by_cases h : comparator y x ≤ 0
    · simp only [sortInsert, if_pos h]
      exact (List.Perm.cons y ih).trans (List.Perm.swap x y ys)
    · simp only [sortInsert, if_neg h]
      exact List.Perm.refl _

theorem sortQueue_go_pairwise :
    ∀ (q acc : List SJob), acc.Pairwise (fun a b => jobLeB a b = true) →
      (q.foldl (fun acc x => sortInsert x acc) acc).Pairwise
        (fun a b => jobLeB a b = true) := by
  intro q
  induction q with
  | nil => intro acc h; simpa using h
  | cons x xs ih =>
    intro acc h
    exact ih (sortInsert x acc) (sortInsert_pairwise x acc h)

theorem sortQueue_go_perm :
    ∀ (q acc : List SJob),
      (q.foldl (fun acc x => sortInsert x acc) acc).Perm (acc ++ q) := by
  intro q
  induction q with
  | nil => intro acc; simp
  | cons x xs ih =>
    intro acc
    exact (ih (sortInsert x acc)).trans
      (((sortInsert_perm x acc).append_right xs).trans List.perm_middle.symm)

/-- A job with a `null` id compares `<= 0` against everything (`0`
against another `null` id via `NaN`, `-1`... never: the other way
round; numeric ids give `-1` since `Infinity` is larger), so the stable
insertion sort sends it past the whole sorted prefix: it is appended at
the tail. -/
theorem sortInsert_nullid (x : SJob) (hx : x.id = none) :
    ∀ l : List SJob, sortInsert x l = l ++ [x]
  | [] => rfl
  | y :: ys => by
    have hc : comparator y x ≤ 0 := by
      rcases hy : y.id with _ | n <;>
        simp [comparator, getId, hy, hx]
    simp only [sortInsert, if_pos hc, sortInsert_nullid x hx ys,
      List.cons_append]

/-- Inserting an element the predicate rejects does not change the
filtered subsequence. -/
theorem filter_sortInsert_not (P : SJob → Bool) (x : SJob)
    (hx : P x = false) :
    ∀ l : List SJob, (sortInsert x l).filter P = l.filter P
  | [] => by simp [sortInsert, hx]
  | y :: ys => by
    by_cases hc : comparator y x ≤ 0
    · simp only [sortInsert, if_pos hc]
      by_cases hy : P y = true
      · rw [List.filter_cons_of_pos hy, List.filter_cons_of_pos hy,
          filter_sortInsert_not P x hx ys]
      · rw [List.filter_cons_of_neg (by simp [hy]),
          List.filter_cons_of_neg (by simp [hy]),
          filter_sortInsert_not P x hx ys]
    · simp only [sortInsert, if_neg hc]
      rw [List.filter_cons_of_neg (by simp [hx])]

theorem filter_swap (p q : SJob → Bool) :
    ∀ l : List SJob, (l.filter p).filter q = (l.filter q).filter p
  | [] => rfl
  | x :: l => by
    by_cases hp : p x = true <;> by_cases hq : q x = true <;>
      simp [List.filter_cons, hp, hq, filter_swap p q l]

/-- Stability of the sort on the `null`-id tie class: for any predicate
`Q` selecting only `null`-id jobs, the `Q`-subsequence of the sorted
queue is exactly the `Q`-subsequence of the input — `null`-id jobs keep
their relative order through the sort, whatever their other flags. -/
theorem sortQueue_stable (Q : SJob → Bool)
    (hQ : ∀ j, Q j = true → j.id = none) :
    ∀ (q acc : List SJob),
      (q.foldl (fun acc x => sortInsert x acc) acc).filter Q
        = acc.filter Q ++ q.filter Q
  | [], acc => by simp
  | x :: q, acc => by
    simp only [List.foldl_cons]
    rw [sortQueue_stable Q hQ q (sortInsert x acc)]
    by_cases hx : x.id = none
    · rw [sortInsert_nullid x hx acc, List.filter_append]
      by_cases hQx : Q x = true
      · rw [List.filter_cons_of_pos hQx]
        simp [hQx]
      · rw [List.filter_cons_of_neg (by simp [hQx])]
        simp [hQx]
    · have hQx : Q x = false := by
        cases hq2 : Q x
        · rfl
        · exact absurd (hQ x hq2) hx
      rw [filter_sortInsert_not Q x hQx acc,
        List.filter_cons_of_neg (by simp [hQx])]

/-- Ascending-id order with a `null` id last (`Infinity`). -/
def idLeInf (a b : Option Nat) : Prop :=
  match a, b with
  | _, none => True
  | none, some _ => False
  | some x, some y => x ≤ y

/-- C6, counterexample.  Two jobs with `null` ids compare via
`Infinity - Infinity = NaN`, which the sort treats as `0`: the `pre` flag
is **not** consulted, so a `pre` job with a `null` id does not run before
an earlier-queued non-`pre` job with a `null` id. -/
theorem flushJobs_nullid_pre_counterexample :
    flushInvocationOrder
        [⟨0, none, false, false, none⟩, ⟨1, none, true, false, none⟩]
      = [⟨0, none, false, false, none⟩, ⟨1, none, true, false, none⟩] ∧
    ¬ (flushInvocationOrder
        [⟨0, none, false, false, none⟩, ⟨1, none, true, false, none⟩]).Pairwise
          (fun x y => ¬ (getId x = getId y ∧ ¬ x.pre = true ∧ y.pre = true)) := by
  constructor
  · rfl
  · intro hpw
    have h2 := (List.pairwise_cons.mp hpw).1 ⟨1, none, true, false, none⟩
      (by decide)
    exact h2 (by decide)

/-- C6, amended.  `flushJobs` sorts the queue with `comparator` before the
walk: the result is a permutation of the queue, runs in ascending id order
with `null` ids (treated as `Infinity`) last, and among jobs of equal
**numeric** id those with `pre` set run before those without.  Jobs whose
ids are both `null` compare as `0` — `Infinity - Infinity` is `NaN`,
coerced to `+0` by the sort — and keep their relative order regardless of
`pre`: the subsequence of `null`-id jobs of the sorted queue (and of the
invocation order) equals that of the original queue.  Every queued job
whose `active` flag is `false` is skipped during the walk. -/
theorem flushJobs_order_spec (queue : List SJob) :
    (sortQueue queue).Perm queue ∧
    (sortQueue queue).Pairwise (fun a b =>
      idLeInf (getId a) (getId b) ∧
      (∀ i, getId a = some i → getId b = some i → ¬ (¬ a.pre = true ∧ b.pre = true))) ∧
    (∀ j ∈ queue, j.active = some false → j ∉ flushInvocationOrder queue) ∧
    (∀ j ∈ flushInvocationOrder queue, ¬ j.active = some false ∧ j ∈ queue) ∧
    ((sortQueue queue).filter (fun j => j.id.isNone)
      = queue.filter (fun j => j.id.isNone)) ∧
    ((flushInvocationOrder queue).filter (fun j => j.id.isNone)
      = (queue.filter (fun j => ! (j.active == some false))).filter
          (fun j => j.id.isNone)) := by
  have hperm : (sortQueue queue).Perm queue := by
    have := sortQueue_go_perm queue []
    simpa [sortQueue] using this
  have hpw : (sortQueue queue).Pairwise (fun a b => jobLeB a b = true) :=
    sortQueue_go_pairwise queue [] (by simp)
  have hQnull : ∀ j : SJob, (fun j : SJob => j.id.isNone) j = true →
      j.id = none := by
    intro j hj
    have hj2 : j.id.isNone = true := hj
    cases hid : j.id with
    | none => rfl
    | some v =>
      rw [hid] at hj2
      simp at hj2
  have hE : (sortQueue queue).filter (fun j => j.id.isNone)
      = queue.filter (fun j => j.id.isNone) := by
    have h := sortQueue_stable _ hQnull queue []
    simpa [sortQueue] using h
  have hF : (flushInvocationOrder queue).filter (fun j => j.id.isNone)
      = (queue.filter (fun j => ! (j.active == some false))).filter
          (fun j => j.id.isNone) := by
    show ((sortQueue queue).filter
        (fun j => ! (j.active == some false))).filter
        (fun j => j.id.isNone) = _
    rw [filter_swap, hE, filter_swap]
  refine ⟨hperm, ?_, ?_, ?_, hE, hF⟩
  · refine hpw.imp ?_
    intro a b hle
    constructor
    · rcases ha : a.id with _ | x <;> rcases hb : b.id with _ | y <;>
        simp only [jobLeB, ha, hb] at hle <;>
        simp only [idLeInf, getId, ha, hb]
      · exact absurd hle (by decide)
      · simp only [Bool.or_eq_true, decide_eq_true_eq, Bool.and_eq_true] at hle
        rcases hle with h | ⟨h, _⟩ <;> omega
    · intro i hia hib
      rcases ha : a.id with _ | x
      · rw [getId, ha] at hia
        exact absurd hia (by simp)
      · rw [getId, ha] at hia
        rcases hb : b.id with _ | y
        · rw [getId, hb] at hib
          exact absurd hib (by simp)
        · rw [getId, hb] at hib
          have hx : x = i := by injection hia
          have hy : y = i := by injection hib
          simp only [jobLeB, ha, hb, Bool.or_eq_true, decide_eq_true_eq,
            Bool.and_eq_true] at hle
          rintro ⟨hap, hbp⟩
          rcases hle with h | ⟨h, hp⟩
          · omega
          · simp [hap, hbp] at hp
  · intro j hj hja hmem
    have := List.mem_filter.mp hmem
    rw [hja] at this
    simp at this
  · intro j hj
    have := List.mem_filter.mp hj
    refine ⟨?_, hperm.mem_iff.mp this.1⟩
    intro hc
    rw [hc] at this
    simp at this

/-! ### C7: recursion cap -/

/-- `const RECURSION_LIMIT = 100`. -/
def RECURSION_LIMIT : Nat := 100

/-- `checkRecursiveUpdates(seen, fn)` restricted to one job: `seen` is the
count stored for the job (`none` when the map has no entry).  The `Bool`
is the return value (`true` exactly when the count exceeds
`RECURSION_LIMIT`, in which case `handleError` raises the
recursion-limit error and the caller skips the job). -/
def checkRecursiveUpdates (seen : Option Nat) : Bool × Option Nat :=
  match seen with
  | none => (false, some 1)
  | some count =>
      if count > RECURSION_LIMIT then (true, some count)
      else (false, some (count + 1))

def countVal : Option Nat → Nat
  | none => 0
  | some c => c

/-- The `flushJobs` walk (`for (flushIndex = 0; flushIndex < queue.length;
flushIndex++)`) specialized to a single `allowRecurse` job whose body
re-enqueues itself: each invocation appends one copy of the job behind the
cursor (`queueJob` dedups only from `flushIndex + 1`, finding nothing),
a skipped job appends nothing, and `seen` persists for the whole flush.
`qlen` is `queue.length`, `fi` is `flushIndex`; the result is
`(invocations, errors raised, final flushIndex)`. -/
def flushSelfRetrigger : Nat → Nat → Option Nat → Nat → Nat → Nat × Nat × Nat
  | qlen, fi, seen, inv, err =>
    if _h : fi < qlen then
      if hskip : (checkRecursiveUpdates seen).1 = true then
        flushSelfRetrigger qlen (fi + 1) (checkRecursiveUpdates seen).2 inv
          (err + 1)
      else
        flushSelfRetrigger (qlen + 1) (fi + 1) (checkRecursiveUpdates seen).2
          (inv + 1) err
    else
      (inv, err, fi)
termination_by qlen fi seen _ _ =>
  (RECURSION_LIMIT + 2 - countVal seen, qlen - fi)
decreasing_by
  · rcases seen with _ | c
    · simp [checkRecursiveUpdates] at hskip
    · simp only [checkRecursiveUpdates] at hskip ⊢
      by_cases hl : c > RECURSION_LIMIT
      · rw [if_pos hl]
        apply Prod.Lex.right
        omega
      · rw [if_neg hl] at hskip
        simp at hskip
  · rcases seen with _ | c
    · simp only [checkRecursiveUpdates]
      apply Prod.Lex.left
      simp [countVal, RECURSION_LIMIT]
    · simp only [checkRecursiveUpdates] at hskip ⊢
      by_cases hl : c > RECURSION_LIMIT
      · rw [if_pos hl] at hskip
        simp at hskip
      · rw [if_neg hl]
        apply Prod.Lex.left
        simp only [countVal]
        simp only [RECURSION_LIMIT] at hl ⊢
        omega

theorem flushSelfRetrigger_unfold (qlen fi : Nat) (seen : Option Nat)
    (inv err : Nat) :
    flushSelfRetrigger qlen fi seen inv err =
      if fi < qlen then
        (if (checkRecursiveUpdates seen).1 = true then
          flushSelfRetrigger qlen (fi + 1) (checkRecursiveUpdates seen).2 inv
            (err + 1)
        else
          flushSelfRetrigger (qlen + 1) (fi + 1) (checkRecursiveUpdates seen).2
            (inv + 1) err)
      else (inv, err, fi) := by
  conv_lhs => unfold flushSelfRetrigger
  split
  · split
    · rfl
    · rfl
  · rfl

theorem flushSelfRetrigger_count :
    ∀ k c inv err qlen fi, fi < qlen → qlen - fi = 1 →
      c + k = RECURSION_LIMIT + 1 →
      flushSelfRetrigger qlen fi (some c) inv err
        = (inv + k, err + 1, fi + k + 1) := by
  intro k
  induction k with
  | zero =>
    intro c inv err qlen fi h1 h2 h3
    rw [flushSelfRetrigger_unfold, if_pos h1]
    have hc : checkRecursiveUpdates (some c) = (true, some c) := by
      simp only [checkRecursiveUpdates]
      rw [if_pos (by omega)]
    rw [hc]
    have htrue : ((true, some c) : Bool × Option Nat).1 = true := rfl
    rw [if_pos htrue]
    rw [flushSelfRetrigger_unfold,
      if_neg (show ¬ (fi + 1 < qlen) by omega)]
    simp only [Prod.mk.injEq, and_true, true_and]
    omega
  | succ k ih =>
    intro c inv err qlen fi h1 h2 h3
    rw [flushSelfRetrigger_unfold, if_pos h1]
    have hc : checkRecursiveUpdates (some c) = (false, some (c + 1)) := by
      simp only [checkRecursiveUpdates]
      rw [if_neg (by omega)]
    rw [hc]
    have hfalse : ¬ ((false, some (c + 1)) : Bool × Option Nat).1 = true := by
      simp
    rw [if_neg hfalse]
    rw [ih (c + 1) (inv + 1) err (qlen + 1) (fi + 1) (by omega) (by omega)
      (by omega)]
    simp only [Prod.mk.injEq, and_true, true_and]
    omega

/-- C7.  Recursion cap: starting from a queue holding one copy of a job
that re-enqueues itself on every invocation, the flush invokes the job
exactly 101 times — i.e. more than `RECURSION_LIMIT = 100` — and on the
next visit `checkRecursiveUpdates` finds the count above the limit, raises
the recursion-limit error exactly once, skips the job (which therefore
enqueues nothing further), and the walk terminates with the queue drained
(final `flushIndex` = 102 = final queue length).  The last conjunct checks
that the error fires exactly when the stored count exceeds the limit. -/
theorem recursion_cap_spec :
    flushSelfRetrigger 1 0 none 0 0 = (101, 1, 102) ∧
    RECURSION_LIMIT < (flushSelfRetrigger 1 0 none 0 0).1 ∧
    (flushSelfRetrigger 1 0 none 0 0).2.1 = 1 ∧
    (∀ c, (checkRecursiveUpdates (some c)).1
      = decide (RECURSION_LIMIT < c)) := by
  have hrun : flushSelfRetrigger 1 0 none 0 0 = (101, 1, 102) := by
    rw [flushSelfRetrigger_unfold, if_pos (by omega)]
    have hc : checkRecursiveUpdates none = (false, some 1) := rfl
    rw [hc]
    have hfalse : ¬ ((false, some 1) : Bool × Option Nat).1 = true := by simp
    rw [if_neg hfalse]
    rw [flushSelfRetrigger_count 100 1 1 0 2 1 (by omega) (by omega)
      (by decide)]
  refine ⟨hrun, by rw [hrun]; decide, by rw [hrun], ?_⟩
  intro c
  by_cases hl : c > RECURSION_LIMIT
  · simp [checkRecursiveUpdates, hl]
  · simp [checkRecursiveUpdates, hl]

theorem flushJobs_order_spec_witness :
    (⟨0, some 1, false, false, some false⟩ : SJob) ∉ flushInvocationOrder
      [⟨0, some 1, false, false, some false⟩,
       ⟨1, some 0, false, false, none⟩] :=
  (flushJobs_order_spec
      [⟨0, some 1, false, false, some false⟩,
       ⟨1, some 0, false, false, none⟩]).2.2.1
    ⟨0, some 1, false, false, some false⟩ (by decide) (by decide)

/-! ## `traverse` (watch facade, `part_000`)

JS object graphs can contain reference cycles, so values are embedded
heap-style: a `JSVal` is a primitive (any non-object) or a reference into
a finite heap of objects.  An object carries its `ReactiveFlags.SKIP`
marker and the shape `traverse` dispatches on: a ref (traverse
`value.value`), an array (traverse the elements), a Set or Map (traverse
the values, in `forEach` order), a plain object (traverse the
string-keyed own enumerable property values, then the enumerable
symbol-keyed ones), or any other object (e.g. a function: no branch
applies).  `depth` is `Infinity` (`none`) or a natural number; `seen` is
the seen-set, a list of visited heap addresses. -/

inductive JSVal where
  | prim : Nat → JSVal
  | obj : Nat → JSVal
deriving DecidableEq, Repr

inductive ObjData where
  | ref (inner : JSVal)
  | arr (elems : List JSVal)
  | set (elems : List JSVal)
  | map (vals : List JSVal)
  | plain (strProps : List JSVal) (symProps : List JSVal)
  | opaqueObj
deriving DecidableEq, Repr

structure HeapObj where
  skip : Bool
  data : ObjData
deriving DecidableEq, Repr

structure Heap where
  objs : List (Nat × HeapObj)
deriving DecidableEq, Repr

def unvisited (h : Heap) (seen : List Nat) : Nat :=
  ((h.objs.map (·.1)).filter (fun a => decide (¬ a ∈ seen))).length

theorem filter_length_mono {α : Type} (p q : α → Bool)
    (hpq : ∀ a, p a = true → q a = true) :
    ∀ l : List α, (l.filter p).length ≤ (l.filter q).length := by
  intro l
  induction l with
  | nil => simp
  | cons x xs ih =>
    by_cases hp : p x = true
    · rw [List.filter_cons_of_pos hp, List.filter_cons_of_pos (hpq x hp)]
      simpa using ih
    · rw [List.filter_cons_of_neg (by simpa using hp)]
      by_cases hq : q x = true
      · rw [List.filter_cons_of_pos hq]
        simp only [List.length_cons]
        omega
      · rw [List.filter_cons_of_neg (by simpa using hq)]
        exact ih

theorem filter_length_strict {seen : List Nat} {a : Nat} (hnot : a ∉ seen) :
    ∀ l : List Nat, a ∈ l →
      (l.filter (fun x => decide (¬ x ∈ a :: seen))).length
        < (l.filter (fun x => decide (¬ x ∈ seen))).length := by
  intro l
  induction l with
  | nil => intro hmem; simp at hmem
  | cons x xs ih =>
    intro hmem
    rcases List.mem_cons.mp hmem with rfl | hmem
    · rw [List.filter_cons_of_neg (by simp), List.filter_cons_of_pos (by simpa)]
      have hmono := filter_length_mono
        (fun x => decide (¬ x ∈ a :: seen)) (fun x => decide (¬ x ∈ seen))
        (by intro y hy
            simp only [decide_eq_true_eq, List.mem_cons] at hy ⊢
            exact fun hc => hy (Or.inr hc)) xs
      simp only [List.length_cons]
      omega
    · by_cases hx : x ∈ seen
      · rw [List.filter_cons_of_neg (by simp [hx]),
          List.filter_cons_of_neg (by simp [hx])]
        exact ih hmem
      · by_cases hxa : x = a
        · subst hxa
          rw [List.filter_cons_of_neg (by simp),
            List.filter_cons_of_pos (by simpa)]
          have hmono := filter_length_mono
            (fun y => decide (¬ y ∈ x :: seen)) (fun y => decide (¬ y ∈ seen))
            (by intro y hy
                simp only [decide_eq_true_eq, List.mem_cons] at hy ⊢
                exact fun hc => hy (Or.inr hc)) xs
          simp only [List.length_cons]
          omega
        · rw [List.filter_cons_of_pos (by simp [hx, hxa]),
            List.filter_cons_of_pos (by simp [hx])]
          simp only [List.length_cons]
          exact Nat.succ_lt_succ (ih hmem)

theorem unvisited_mono (h : Heap) {seen seen' : List Nat}
    (hsub : seen ⊆ seen') : unvisited h seen' ≤ unvisited h seen := by
  apply filter_length_mono
  intro a ha
  simp only [decide_eq_true_eq] at ha ⊢
  exact fun hmem => ha (hsub hmem)

theorem unvisited_lt (h : Heap) {seen : List Nat} {a : Nat}
    (hmem : a ∈ h.objs.map (·.1)) (hnot : a ∉ seen) :
    unvisited h (a :: seen) < unvisited h seen :=
  filter_length_strict hnot _ hmem

theorem aget_some_mem {κ α : Type} [DecidableEq κ] {l : List (κ × α)}
    {k : κ} {v : α} (h : aget l k = some v) : k ∈ l.map (·.1) := by
  induction l with
  | nil => simp [aget] at h
  | cons p t ih =>
    by_cases hp : p.1 = k
    · simp [hp]
    · simp only [aget, if_neg hp] at h
      simp only [List.map_cons, List.mem_cons]
      exact Or.inr (ih h)

mutual

def traverse (h : Heap) (value : JSVal) (depth : Option Nat)
    (seen : List Nat) : JSVal × {s : List Nat // seen ⊆ s} :=
  match value with
  | .prim _ => (value, ⟨seen, List.Subset.refl seen⟩)
  | .obj a =>
    match haget : aget h.objs a with
    | none => (value, ⟨seen, List.Subset.refl seen⟩)
    | some o =>
      if depth = some 0 ∨ o.skip = true then
        (value, ⟨seen, List.Subset.refl seen⟩)
      else if hseen : a ∈ seen then
        (value, ⟨seen, List.Subset.refl seen⟩)
      else
        match o.data with
        | .ref inner =>
          let r := traverse h inner (depth.map (fun d => d - 1)) (a :: seen)
          (value, ⟨r.2.1, fun x hx => r.2.2 (List.mem_cons_of_mem a hx)⟩)
        | .arr elems =>
          let r := traverseList h elems (depth.map (fun d => d - 1)) (a :: seen)
          (value, ⟨r.1, fun x hx => r.2 (List.mem_cons_of_mem a hx)⟩)
        | .set elems =>
          let r := traverseList h elems (depth.map (fun d => d - 1)) (a :: seen)
          (value, ⟨r.1, fun x hx => r.2 (List.mem_cons_of_mem a hx)⟩)
        | .map vals =>
          let r := traverseList h vals (depth.map (fun d => d - 1)) (a :: seen)
          (value, ⟨r.1, fun x hx => r.2 (List.mem_cons_of_mem a hx)⟩)
        | .plain strProps symProps =>
          let r1 := traverseList h strProps (depth.map (fun d => d - 1))
            (a :: seen)
          let r2 := traverseList h symProps (depth.map (fun d => d - 1)) r1.1
          (value, ⟨r2.1, fun x hx =>
            r2.2 (r1.2 (List.mem_cons_of_mem a hx))⟩)
        | .opaqueObj =>
          (value, ⟨a :: seen, List.subset_cons_self a seen⟩)
termination_by (unvisited h seen, 0)
decreasing_by
  all_goals simp_wf
  all_goals
    first
      | exact Prod.Lex.left _ _ (unvisited_lt h (aget_some_mem haget) hseen)
      | exact Prod.Lex.right _ (by omega)
      | (apply Prod.Lex.left
         exact Nat.lt_of_le_of_lt (unvisited_mono h r1.2)
           (unvisited_lt h (aget_some_mem haget) hseen))
      | (rcases Nat.lt_or_ge (unvisited h r.2.1) (unvisited h seen) with hlt | hge
         · exact Prod.Lex.left _ _ hlt
         · have hle := unvisited_mono h r.2.2
           have heq : unvisited h r.2.1 = unvisited h seen := by omega
           rw [heq]
           exact Prod.Lex.right _ (by omega))

def traverseList (h : Heap) (vs : List JSVal) (depth : Option Nat)
    (seen : List Nat) : {s : List Nat // seen ⊆ s} :=
  match vs with
  | [] => ⟨seen, List.Subset.refl seen⟩
  | v :: rest =>
    let r := traverse h v depth seen
    let r2 := traverseList h rest depth r.2.1
    ⟨r2.1, fun x hx => r2.2 (r.2.2 hx)⟩
termination_by (unvisited h seen, vs.length + 1)
decreasing_by
  all_goals simp_wf
  all_goals
    first
      | exact Prod.Lex.right _ (by omega)
      | (rcases Nat.lt_or_ge (unvisited h r.2.1) (unvisited h seen) with hlt | hge
         · exact Prod.Lex.left _ _ hlt
         · have hle := unvisited_mono h r.2.2
           have heq : unvisited h r.2.1 = unvisited h seen := by omega
           rw [heq]
           exact Prod.Lex.right _ (by omega))

end

/-- C9.  `traverse(value, depth, seen)` is total — the Lean definition
above is accepted by well-founded recursion on (unvisited heap addresses,
pending work), which covers arbitrary object graphs including reference
cycles (each object is visited at most once per call via the seen set,
and recursion also stops at depth 0, on non-objects, on dangling or
skip-marked objects) — and it returns its original `value` argument
unchanged on every path. -/
theorem traverse_returns_value (h : Heap) (value : JSVal) (depth : Option Nat)
    (seen : List Nat) : (traverse h value depth seen).1 = value := by
  cases value with
  | prim n =>
    conv_lhs => unfold traverse
  | obj a =>
    conv_lhs => unfold traverse
    repeat' split
    all_goals rfl

theorem traverse_returns_value_witness :
    (traverse (Heap.mk [(0, ⟨false, ObjData.ref (JSVal.obj 1)⟩),
        (1, ⟨false, ObjData.ref (JSVal.obj 0)⟩)])
      (JSVal.obj 0) none []).1 = JSVal.obj 0 :=
  traverse_returns_value (Heap.mk [(0, ⟨false, ObjData.ref (JSVal.obj 1)⟩),
    (1, ⟨false, ObjData.ref (JSVal.obj 0)⟩)]) (JSVal.obj 0) none []


/-! ## Computed caching (`ComputedRefImpl` in `part_002`,
`ReactiveEffect.dirty` / `run` in `part_001`)

The model specializes to a computed over a single plain reactive source
(no computed-over-computed chains): none of the effect's deps carries a
`computed` owner, so the resolution loop in the `dirty` getter never runs
its body, and the source's dep membership is re-collected identically on
every run, so the dep bookkeeping of `run` does not affect the fields
modelled here.  `lastResult` and `getterRuns` are ghost fields recording
the getter's last observed result and its invocation count. -/

/-- Modelled from the spec: the `DirtyLevels` enum lives in
`constants.ts`, which is not among the provided sources.  The spec lists
the levels as {NotDirty, QueryingDirty, MaybeDirty_ComputedSideEffect,
MaybeDirty, Dirty}, a strict ordering used only through `<` / `>=`
comparisons, embedded here as 0..4. -/
def NotDirty : Nat := 0
/-- Modelled from the spec: see `NotDirty`. -/
def QueryingDirty : Nat := 1
/-- Modelled from the spec: see `NotDirty`. -/
def MaybeDirty_ComputedSideEffect : Nat := 2
/-- Modelled from the spec: see `NotDirty`. -/
def MaybeDirty : Nat := 3
/-- Modelled from the spec: see `NotDirty`. -/
def Dirty : Nat := 4

structure Computed where
  source : Nat
  value : Option Nat
  lastResult : Option Nat
  dirtyLevel : Nat
  cacheable : Bool
  getterRuns : Nat
deriving DecidableEq, Repr

/-- A fresh computed: `ReactiveEffect._dirtyLevel` initializes to
`Dirty`, `_value` is `undefined` (`none`), and `_cacheable = !isSSR =
true` (which also equals `effect.active`). -/
def initComputed (s0 : Nat) : Computed :=
  { source := s0, value := none, lastResult := none, dirtyLevel := Dirty,
    cacheable := true, getterRuns := 0 }

/-- `get dirty()` of `ReactiveEffect`: when the level is one of the two
MaybeDirty states, set `QueryingDirty`, pause tracking, walk the deps
whose Dep has a computed owner (none here, so the loop body never runs),
then downgrade `QueryingDirty` to `NotDirty` and reset tracking; finally
report `_dirtyLevel >= Dirty`. -/
def effectDirty (c : Computed) : Bool × Computed :=
  if c.dirtyLevel = MaybeDirty_ComputedSideEffect ∨
      c.dirtyLevel = MaybeDirty then
    let c1 := { c with dirtyLevel := QueryingDirty }
    let c2 := if c1.dirtyLevel = QueryingDirty then
        { c1 with dirtyLevel := NotDirty } else c1
    (decide (c2.dirtyLevel ≥ Dirty), c2)
  else
    (decide (c.dirtyLevel ≥ Dirty), c)

/-- `ReactiveEffect.run` of the computed effect: set `_dirtyLevel =
NotDirty`, then run `fn = () => getter(this._value)`, which reads the
source.  `getter` may use the previous `_value`, mirroring
`getter(this._value)`. -/
def effectRun (g : Option Nat → Nat → Nat) (c : Computed) : Nat × Computed :=
  let c1 := { c with dirtyLevel := NotDirty }
  let res := g c1.value c1.source
  (res, { c1 with getterRuns := c1.getterRuns + 1, lastResult := some res })

/-- `get value()` of `ComputedRefImpl`:
`if ((!self._cacheable || self.effect.dirty) && hasChanged(self._value,
(self._value = self.effect.run()))) triggerRefValue(self, Dirty)` — the
short-circuit evaluates `dirty` (with its side effects) only when
cacheable, and the run + assignment happen whenever the left conjunct is
true; `triggerRefValue` and `trackRefValue` only touch subscribers /
the current outer effect, neither of which this model has; the final
`_dirtyLevel >= MaybeDirty_ComputedSideEffect` re-trigger is likewise
subscriber-only.  Returns `self._value`. -/
def readValue (g : Option Nat → Nat → Nat) (c : Computed) :
    Option Nat × Computed :=
  let dirtyRes := if ¬ c.cacheable = true then (true, c) else effectDirty c
  let c1 := dirtyRes.2
  if dirtyRes.1 = true then
    let runRes := effectRun g c1
    let c3 := { runRes.2 with value := some runRes.1 }
    (c3.value, c3)
  else
    (c1.value, c1)

/-- A write to the source: `trigger` reaches `triggerEffects(dep,
DirtyLevels.Dirty)`, whose loop (the edge is current) raises
`_dirtyLevel` to `Dirty` when it was below; `effect.trigger()` then
notifies the computed's subscribers only, and the computed effect has no
scheduler. -/
def setSource (n : Nat) (c : Computed) : Computed :=
  if c.dirtyLevel < Dirty then { c with source := n, dirtyLevel := Dirty }
  else { c with source := n }

/-- States of a cacheable computed reachable by reads and source
writes. -/
inductive CReach (g : Option Nat → Nat → Nat) : Computed → Prop
  | init (s0 : Nat) : CReach g (initComputed s0)
  | read {c : Computed} (h : CReach g c) : CReach g (readValue g c).2
  | write {c : Computed} (n : Nat) (h : CReach g c) :
      CReach g (setSource n c)

theorem readValue_level (g : Option Nat → Nat → Nat) (c : Computed)
    (hc : c.cacheable = true) : (readValue g c).2.dirtyLevel ≤ 1 := by
  by_cases h23 : c.dirtyLevel = MaybeDirty_ComputedSideEffect ∨
      c.dirtyLevel = MaybeDirty
  · simp [readValue, effectDirty, effectRun, hc, h23, NotDirty, QueryingDirty,
      Dirty]
  · by_cases hge : c.dirtyLevel ≥ Dirty
    · have hge2 : 4 ≤ c.dirtyLevel := by simpa [Dirty] using hge
      simp [readValue, effectDirty, effectRun, hc, h23, NotDirty, Dirty, hge2]
    · have hge2 : ¬ 4 ≤ c.dirtyLevel := by simpa [Dirty] using hge
      simp only [MaybeDirty_ComputedSideEffect, MaybeDirty] at h23
      simp [readValue, effectDirty, effectRun, hc, h23, NotDirty, Dirty,
        MaybeDirty_ComputedSideEffect, MaybeDirty, hge2]
      omega

theorem readValue_cached (g : Option Nat → Nat → Nat) (c : Computed)
    (hc : c.cacheable = true) (hlvl : c.dirtyLevel ≤ 1) :
    readValue g c = (c.value, c) := by
  have h23 : ¬ (c.dirtyLevel = MaybeDirty_ComputedSideEffect ∨
      c.dirtyLevel = MaybeDirty) := by
    simp only [MaybeDirty_ComputedSideEffect, MaybeDirty]
    omega
  have hge : ¬ c.dirtyLevel ≥ Dirty := by
    simp only [Dirty]
    omega
  simp [readValue, effectDirty, hc, h23, hge]

theorem readValue_fst (g : Option Nat → Nat → Nat) (c : Computed) :
    (readValue g c).1 = (readValue g c).2.value := by
  cases hcac : c.cacheable
  · simp [readValue, hcac]
  · by_cases hd : (effectDirty c).1 = true
    · simp [readValue, hcac, hd]
    · simp [readValue, hcac, hd]

/-- C4, amended.  For a cacheable computed, two consecutive reads of
`.value` with no change to any dependency between the reads invoke the
getter **at most** once in total, and **exactly** once when the effect's
dirtyLevel is `Dirty` at the first read (as on the first-ever read, or
right after a dependency change); the second read returns the cached
`_value` without running the effect (the state is unchanged).  And in
every reachable state whose dirtyLevel is below `Dirty`, the cached
`_value` equals the getter's last observed result. -/
theorem computed_caching_spec (g : Option Nat → Nat → Nat) (c : Computed) :
    (c.cacheable = true → c.dirtyLevel = Dirty →
      ((readValue g ((readValue g c).2)).2.getterRuns = c.getterRuns + 1 ∧
       (readValue g ((readValue g c).2)).1 = (readValue g c).1 ∧
       (readValue g ((readValue g c).2)).2 = (readValue g c).2)) ∧
    (c.cacheable = true →
      (readValue g ((readValue g c).2)).2.getterRuns ≤ c.getterRuns + 1) ∧
    (CReach g c → c.dirtyLevel < Dirty →
      c.value = c.lastResult ∧ c.lastResult.isSome = true) := by
  have hcache : ∀ d : Computed, d.cacheable = true → d.dirtyLevel ≤ 1 →
      readValue g d = (d.value, d) := fun d => readValue_cached g d
  refine ⟨?_, ?_, ?_⟩
  · intro hc hd
    have hcac2 : (readValue g c).2.cacheable = true := by
      by_cases h23 : c.dirtyLevel = MaybeDirty_ComputedSideEffect ∨
          c.dirtyLevel = MaybeDirty
      · simp [readValue, effectDirty, effectRun, hc, h23, NotDirty,
          QueryingDirty, Dirty]
      · by_cases hge : c.dirtyLevel ≥ Dirty
        · have hge2 : 4 ≤ c.dirtyLevel := by simpa [Dirty] using hge
          simp [readValue, effectDirty, effectRun, hc, h23, NotDirty, Dirty,
            hge2]
        · have hge2 : ¬ 4 ≤ c.dirtyLevel := by simpa [Dirty] using hge
          simp [readValue, effectDirty, effectRun, hc, h23, NotDirty, Dirty,
            hge2]
    have h2 := hcache (readValue g c).2 hcac2 (readValue_level g c hc)
    have hruns : (readValue g c).2.getterRuns = c.getterRuns + 1 := by
      have h23 : ¬ (c.dirtyLevel = MaybeDirty_ComputedSideEffect ∨
          c.dirtyLevel = MaybeDirty) := by
        rw [hd]
        simp [MaybeDirty_ComputedSideEffect, MaybeDirty, Dirty]
      have hge2 : 4 ≤ c.dirtyLevel := by rw [hd]; decide
      simp [readValue, effectDirty, effectRun, hc, h23, NotDirty, Dirty, hge2]
    rw [h2]
    exact ⟨hruns, (readValue_fst g c).symm, rfl⟩
  · intro hc
    have hcac2 : (readValue g c).2.cacheable = true := by
      by_cases h23 : c.dirtyLevel = MaybeDirty_ComputedSideEffect ∨
          c.dirtyLevel = MaybeDirty
      · simp [readValue, effectDirty, effectRun, hc, h23, NotDirty,
          QueryingDirty, Dirty]
      · by_cases hge : c.dirtyLevel ≥ Dirty
        · have hge2 : 4 ≤ c.dirtyLevel := by simpa [Dirty] using hge
          simp [readValue, effectDirty, effectRun, hc, h23, NotDirty, Dirty,
            hge2]
        · have hge2 : ¬ 4 ≤ c.dirtyLevel := by simpa [Dirty] using hge
          simp [readValue, effectDirty, effectRun, hc, h23, NotDirty, Dirty,
            hge2]
    have h2 := hcache (readValue g c).2 hcac2 (readValue_level g c hc)
    rw [h2]
    by_cases h23 : c.dirtyLevel = MaybeDirty_ComputedSideEffect ∨
        c.dirtyLevel = MaybeDirty
    · simp [readValue, effectDirty, effectRun, hc, h23, NotDirty,
        QueryingDirty, Dirty]
    · by_cases hge : c.dirtyLevel ≥ Dirty
      · have hge2 : 4 ≤ c.dirtyLevel := by simpa [Dirty] using hge
        simp [readValue, effectDirty, effectRun, hc, h23, NotDirty, Dirty,
          hge2]
      · have hge2 : ¬ 4 ≤ c.dirtyLevel := by simpa [Dirty] using hge
        simp [readValue, effectDirty, effectRun, hc, h23, NotDirty, Dirty,
          hge2]
  · intro hreach
    induction hreach with
    | init s0 =>
      intro hlt
      rw [initComputed] at hlt
      simp [Dirty] at hlt
    | read h ih =>
      rename_i c0
      intro _
      by_cases hc : c0.cacheable = true
      · by_cases h23 : c0.dirtyLevel = MaybeDirty_ComputedSideEffect ∨
            c0.dirtyLevel = MaybeDirty
        · have := ih (by
            rcases h23 with h23 | h23 <;> rw [h23] <;>
              simp [MaybeDirty_ComputedSideEffect, MaybeDirty, Dirty])
          simp [readValue, effectDirty, effectRun, hc, h23, NotDirty,
            QueryingDirty, Dirty]
          exact this
        · by_cases hge : c0.dirtyLevel ≥ Dirty
          · have hge2 : 4 ≤ c0.dirtyLevel := by simpa [Dirty] using hge
            simp [readValue, effectDirty, effectRun, hc, h23, NotDirty, Dirty,
              hge2]
          · have hge2 : ¬ 4 ≤ c0.dirtyLevel := by simpa [Dirty] using hge
            have := ih (by simp only [Dirty] at hge ⊢; omega)
            simp [readValue, effectDirty, effectRun, hc, h23, NotDirty, Dirty,
              hge2]
            exact this
      · simp [readValue, effectDirty, effectRun, hc]
    | write n h ih =>
      rename_i c0
      intro hlt
      by_cases hdl : c0.dirtyLevel < Dirty
      · rw [setSource, if_pos hdl] at hlt
        simp [Dirty] at hlt
      · rw [setSource, if_neg hdl] at hlt
        simp only at hlt
        exact absurd hlt (by simp only [Dirty] at hdl ⊢; omega)

/-- C4, counterexample.  Reads 2 and 3 of a computed are two consecutive
reads with no change to any dependency between them, yet they invoke the
getter zero times in total (the value is already cached), not exactly
once: after read 1 the getter has run once, and it has still run exactly
once after reads 2 and 3. -/
theorem computed_exactly_once_counterexample :
    (initComputed 5).cacheable = true ∧
    ((readValue (fun _ s => s) (initComputed 5)).2).getterRuns = 1 ∧
    ((readValue (fun _ s => s)
        ((readValue (fun _ s => s)
          ((readValue (fun _ s => s) (initComputed 5)).2)).2)).2).getterRuns
      = 1 ∧
    ¬ ((readValue (fun _ s => s)
        ((readValue (fun _ s => s)
          ((readValue (fun _ s => s) (initComputed 5)).2)).2)).2).getterRuns
      = ((readValue (fun _ s => s) (initComputed 5)).2).getterRuns + 1 := by
  decide

theorem computed_caching_spec_witness :
    ((initComputed 5).cacheable = true ∧ (initComputed 5).dirtyLevel = Dirty) ∧
    ((readValue (fun _ s => s)
        ((readValue (fun _ s => s) (initComputed 5)).2)).2.getterRuns
      = (initComputed 5).getterRuns + 1) ∧
    ((readValue (fun _ s => s) (initComputed 5)).2.dirtyLevel < Dirty ∧
      (readValue (fun _ s => s) (initComputed 5)).2.value
        = (readValue (fun _ s => s) (initComputed 5)).2.lastResult) := by
  refine ⟨⟨by decide, by decide⟩, ?_, ?_⟩
  · exact ((computed_caching_spec (fun _ s => s) (initComputed 5)).1
      (by decide) (by decide)).1
  · refine ⟨by decide, ?_⟩
    exact ((computed_caching_spec (fun _ s => s)
        ((readValue (fun _ s => s) (initComputed 5)).2)).2.2
      (CReach.read (CReach.init 5)) (by decide)).1

/-! ## Reactivity core: effects, deps and the target map

`ReactiveEffect`, `preCleanupEffect`, `postCleanupEffect`,
`cleanupDepEffect` and `trackEffect` from `effect.ts`
(`src/unnamed/part_001`), `track` from
`src/packages/reactivity/src/reactiveEffect.ts`, and `createDep` from
`src/packages/reactivity/src/dep.ts`.

The JS heap is embedded explicitly.  `World.depStore` maps a dep id (the
object identity of the `Map` allocated by `createDep`) to its state;
`World.effects` maps an effect id (the identity of a `ReactiveEffect`)
to the fields the claims mention; `World.targetMap` flattens the
two-level `targetMap : target -> key -> Dep` chain into a single map
from a `(target, key)` pair to a dep id — the lookup
`targetMap.get(target)?.get(key)` and the flat lookup at the pair agree,
and a dep's `cleanup` closure `() => depsMap.delete(key)` deletes
exactly its own `(target, key)` slot.  Targets and keys are embedded as
numbers.  `cleanupCount` and `onStopCount` are ghost counters recording
how many times `dep.cleanup()` and `onStop()` have been invoked. -/

/-- A `Dep` (`dep.ts`): a `Map<ReactiveEffect, number>` from effect id
to the `_trackId` recorded for it, plus the captured `(target, key)` its
cleanup closure deletes, plus the ghost cleanup counter. -/
structure Dep where
  entries : List (Nat × Nat)
  owner : Nat × Nat
  cleanupCount : Nat
deriving DecidableEq, Repr

/-- The `ReactiveEffect` fields relevant to the claims.  `_runnings` is
omitted: it is incremented and decremented symmetrically inside `run`
and never observed by the modelled operations. -/
structure Effect where
  active : Bool
  deps : List Nat
  depsLength : Nat
  trackId : Nat
  dirtyLevel : Nat
  onStopCount : Nat
deriving DecidableEq, Repr

/-- The reactivity heap. -/
structure World where
  depStore : List (Nat × Dep)
  targetMap : List ((Nat × Nat) × Nat)
  nextDepId : Nat
  effects : List (Nat × Effect)
  nextEffectId : Nat
deriving DecidableEq, Repr

/-- Store a dep's state. -/
def setDep (w : World) (did : Nat) (d : Dep) : World :=
  { w with depStore := aset w.depStore did d }

/-- Store an effect's state. -/
def setEff (w : World) (eid : Nat) (e : Effect) : World :=
  { w with effects := aset w.effects eid e }

/-- The cleanup closure a dep is created with in `track`:
`() => depsMap.delete(key)` removes the dep's own slot from the key
map.  The ghost `cleanupCount` is incremented. -/
def depCleanup (w : World) (did : Nat) : World :=
  match aget w.depStore did with
  | some d =>
    { w with targetMap := adel w.targetMap d.owner,
             depStore := aset w.depStore did
               { d with cleanupCount := d.cleanupCount + 1 } }
  | none => w

/-- `cleanupDepEffect(dep, effect)` (`effect.ts` 171–179): read
`dep.get(effect)`; when defined and different from the effect's current
`_trackId`, delete the entry, and when the dep becomes empty run
`dep.cleanup()`. -/
def cleanupDepEffect (w : World) (did eid : Nat) : World :=
  match aget w.depStore did, aget w.effects eid with
  | some d, some e =>
    (match aget d.entries eid with
     | some tid =>
        if e.trackId ≠ tid then
          let w1 := setDep w did { d with entries := adel d.entries eid }
          if (adel d.entries eid).length = 0 then depCleanup w1 did else w1
        else w
     | none => w)
  | _, _ => w

/-- JS `arr[i] = v` where `i ≤ arr.length` (the only shape occurring in
`trackEffect`): overwrite in place, or append one slot. -/
def listSet (l : List Nat) (i v : Nat) : List Nat :=
  if i < l.length then l.set i v else l ++ [v]

/-- `trackEffect(effect, dep)` (`effect.ts` 307–340): return early when
`dep.get(effect) === effect._trackId`; otherwise
`dep.set(effect, effect._trackId)`, read the positional slot
`oldDep = effect.deps[effect._depsLength]`, and either bump
`_depsLength` (same dep), or store the new dep in the slot — running
`cleanupDepEffect(oldDep, effect)` first when the slot held a different
dep. -/
def trackEffect (w : World) (eid did : Nat) : World :=
  match aget w.effects eid, aget w.depStore did with
  | some e, some d =>
    if aget d.entries eid ≠ some e.trackId then
      let w1 := setDep w did { d with entries := aset d.entries eid e.trackId }
      match e.deps[e.depsLength]? with
      | some od =>
        if od ≠ did then
          let w2 := cleanupDepEffect w1 od eid
          setEff w2 eid { e with deps := listSet e.deps e.depsLength did,
                                 depsLength := e.depsLength + 1 }
        else
          setEff w1 eid { e with depsLength := e.depsLength + 1 }
      | none =>
        setEff w1 eid { e with deps := listSet e.deps e.depsLength did,
                               depsLength := e.depsLength + 1 }
    else w
  | _, _ => w

/-- `track(target, type, key)` (`reactiveEffect.ts` 33–71) in a context
where `shouldTrack && activeEffect === effects[eid]` (a read performed
by the running effect's `fn`): look the dep for `(target, key)` up,
allocating a fresh `createDep(() => depsMap.delete(key))` into the map
when absent, then `trackEffect(activeEffect, dep)`. -/
def track (w : World) (eid t k : Nat) : World :=
  match aget w.targetMap (t, k) with
  | some did => trackEffect w eid did
  | none =>
    let did := w.nextDepId
    let w1 : World :=
      { w with depStore := aset w.depStore did
                 { entries := [], owner := (t, k), cleanupCount := 0 },
               targetMap := aset w.targetMap (t, k) did,
               nextDepId := w.nextDepId + 1 }
    trackEffect w1 eid did

/-- `preCleanupEffect` (`effect.ts` 157–160): `effect._trackId++;
effect._depsLength = 0`. -/
def preCleanupEffect (w : World) (eid : Nat) : World :=
  match aget w.effects eid with
  | some e => setEff w eid { e with trackId := e.trackId + 1, depsLength := 0 }
  | none => w

/-- `postCleanupEffect` (`effect.ts` 162–169): when
`deps.length > _depsLength`, run `cleanupDepEffect` on every dep at
index ≥ `_depsLength`, then truncate `deps` to `_depsLength`. -/
def postCleanupEffect (w : World) (eid : Nat) : World :=
  match aget w.effects eid with
  | some e =>
    if e.depsLength < e.deps.length then
      let w1 := (e.deps.drop e.depsLength).foldl
        (fun acc did => cleanupDepEffect acc did eid) w
      match aget w1.effects eid with
      | some e1 => setEff w1 eid { e1 with deps := e1.deps.take e1.depsLength }
      | none => w1
    else w
  | none => w

/-- One complete `ReactiveEffect.run()` (`effect.ts` 108–141) whose `fn`
reads the listed `(target, key)` properties in order, each read calling
`track`.  Mirrors the source: `_dirtyLevel = NotDirty` first; when
`!active`, `fn` runs with no tracking (the `activeEffect` switch is
never reached, so reads do not call into `trackEffect`); otherwise
`preCleanupEffect`, the tracked reads, and `postCleanupEffect` in the
`finally`. -/
def runEffect (w : World) (eid : Nat) (reads : List (Nat × Nat)) : World :=
  match aget w.effects eid with
  | some e =>
    let w0 := setEff w eid { e with dirtyLevel := NotDirty }
    if e.active then
      let w1 := preCleanupEffect w0 eid
      let w2 := reads.foldl (fun acc r => track acc eid r.1 r.2) w1
      postCleanupEffect w2 eid
    else w0
  | none => w

/-- `ReactiveEffect.stop()` (`effect.ts` 143–150): the whole body is
guarded by `active`; it runs `preCleanupEffect`, `postCleanupEffect`,
the `onStop` callback, and clears `active`. -/
def stopEffect (w : World) (eid : Nat) : World :=
  match aget w.effects eid with
  | some e =>
    if e.active then
      let w1 := preCleanupEffect w eid
      let w2 := postCleanupEffect w1 eid
      match aget w2.effects eid with
      | some e2 => setEff w2 eid
          { e2 with onStopCount := e2.onStopCount + 1, active := false }
      | none => w2
    else w
  | none => w

/-- `new ReactiveEffect(fn, …)`: the field initialisers
`active = true`, `deps = []`, `_depsLength = 0`, `_trackId = 0`,
`_dirtyLevel = DirtyLevels.Dirty`. -/
def newEffect (w : World) : World :=
  { w with effects := aset w.effects w.nextEffectId
             { active := true, deps := [], depsLength := 0, trackId := 0,
               dirtyLevel := Dirty, onStopCount := 0 },
           nextEffectId := w.nextEffectId + 1 }

/-- The world before any effect or reactive read exists. -/
def initWorld : World :=
  { depStore := [], targetMap := [], nextDepId := 0, effects := [],
    nextEffectId := 0 }

/-- The client-visible operations on the reactivity heap. -/
inductive WOp where
  | newEff : WOp
  | run : Nat → List (Nat × Nat) → WOp
  | stop : Nat → WOp
deriving DecidableEq, Repr

def applyOp (w : World) : WOp → World
  | .newEff => newEffect w
  | .run eid reads => runEffect w eid reads
  | .stop eid => stopEffect w eid

/-- Worlds reachable from `initWorld` by creating, running and stopping
effects. -/
inductive Reach : World → Prop where
  | init : Reach initWorld
  | step (w : World) (op : WOp) : Reach w → Reach (applyOp w op)

/-! ### Frame lemmas -/

theorem depCleanup_effects (w : World) (did : Nat) :
    (depCleanup w did).effects = w.effects := by
  unfold depCleanup; split <;> rfl

theorem cleanupDepEffect_effects (w : World) (did eid : Nat) :
    (cleanupDepEffect w did eid).effects = w.effects := by
  unfold cleanupDepEffect
  repeat' split
  all_goals first
    | rfl
    | (rw [depCleanup_effects]; rfl)

theorem cleanups_effects (eid : Nat) : ∀ (l : List Nat) (w : World),
    (l.foldl (fun acc did => cleanupDepEffect acc did eid) w).effects
      = w.effects
  | [], _ => rfl
  | od :: t, w => by
      simp only [List.foldl_cons]
      rw [cleanups_effects eid t, cleanupDepEffect_effects]

theorem postCleanup_active (w : World) (eid : Nat) (e : Effect)
    (he : aget w.effects eid = some e) :
    ∃ e2, aget (postCleanupEffect w eid).effects eid = some e2 ∧
      e2.active = e.active := by
  unfold postCleanupEffect
  rw [he]
  dsimp only
  by_cases hlen : e.depsLength < e.deps.length
  · rw [if_pos hlen]
    have heff := cleanups_effects eid (e.deps.drop e.depsLength) w
    rw [heff, he]
    dsimp only
    refine ⟨{ e with deps := e.deps.take e.depsLength }, ?_, rfl⟩
    simp [setEff, aget_aset_self]
  · rw [if_neg hlen]
    exact ⟨e, he, rfl⟩

theorem stop_noop (w : World) (eid : Nat) (e : Effect)
    (he : aget w.effects eid = some e) (ha : e.active = false) :
    stopEffect w eid = w := by
  unfold stopEffect
  rw [he]
  dsimp only
  rw [ha]
  simp

/-- C10.  `stop()` is idempotent: a second call of
`ReactiveEffect.stop()` is a no-op on the whole heap — `active` stays
`false`, the effect's `deps` list, every dep's membership table and the
ghost `onStop` counter are unchanged — because the entire body of
`stop` is guarded by the `active` flag, which the first call clears. -/
theorem stop_idempotent (w : World) (eid : Nat) :
    stopEffect (stopEffect w eid) eid = stopEffect w eid := by
  cases he : aget w.effects eid with
  | none =>
    have h1 : stopEffect w eid = w := by unfold stopEffect; rw [he]
    rw [h1, h1]
  | some e =>
    cases hact : e.active with
    | false =>
      have h1 : stopEffect w eid = w := stop_noop w eid e he hact
      rw [h1, h1]
    | true =>
      have hpre : aget (preCleanupEffect w eid).effects eid
          = some { e with trackId := e.trackId + 1, depsLength := 0 } := by
        unfold preCleanupEffect
        rw [he]
        simp [setEff, aget_aset_self]
      obtain ⟨e2, hge2, hact2⟩ :=
        postCleanup_active (preCleanupEffect w eid) eid _ hpre
      have h1 : ∃ e3, aget (stopEffect w eid).effects eid = some e3 ∧
          e3.active = false := by
        unfold stopEffect
        rw [he]
        dsimp only
        rw [hact]
        rw [if_pos rfl]
        rw [hge2]
        dsimp only
        refine ⟨{ e2 with onStopCount := e2.onStopCount + 1,
                          active := false }, ?_, rfl⟩
        simp [setEff, aget_aset_self]
      obtain ⟨e3, hge3, hact3⟩ := h1
      exact stop_noop (stopEffect w eid) eid e3 hge3 hact3

/-! ### Small helpers for the invariant proofs -/

theorem aset_ne_nil {κ α : Type} [DecidableEq κ] (l : List (κ × α))
    (k : κ) (v : α) : aset l k v ≠ [] := by
  cases l with
  | nil => simp [aset]
  | cons p t => by_cases h : p.1 = k <;> simp [aset, h]

theorem filter_none_of_ne {t : List (Nat × Nat)} {k : Nat}
    (h : ∀ q ∈ t, q.1 ≠ k) : t.filter (fun p => p.1 == k) = [] := by
  induction t with
  | nil => rfl
  | cons q r ih =>
    have hq : (q.1 == k) = false := by
      simp only [beq_eq_false_iff_ne, ne_eq]
      exact h q (List.mem_cons_self _ _)
    rw [List.filter_cons_of_neg (by simp [hq])]
    exact ih (fun x hx => h x (List.mem_cons_of_mem _ hx))

/-- In a key-distinct association list holding key `k`, exactly one
entry has key `k`. -/
theorem filter_count_one {l : List (Nat × Nat)} (hk : KeysDistinct l)
    {k v : Nat} (h : aget l k = some v) :
    (l.filter (fun p => p.1 == k)).length = 1 := by
  induction l with
  | nil => simp [aget] at h
  | cons p t ih =>
    rcases List.pairwise_cons.mp hk with ⟨hp, ht⟩
    by_cases hpk : p.1 = k
    · have hrest : t.filter (fun p => p.1 == k) = [] := by
        refine filter_none_of_ne (fun q hq hqk => ?_)
        exact hp q hq (by rw [hpk, hqk])
      rw [List.filter_cons_of_pos (by simp [hpk]), hrest]
      rfl
    · rw [List.filter_cons_of_neg (by simp [hpk])]
      rw [aget, if_neg hpk] at h
      exact ih ht h

theorem set_take_concat : ∀ (l : List Nat) (i v : Nat), i < l.length →
    (l.set i v).take (i + 1) = l.take i ++ [v]
  | [], _, _, h => by simp at h
  | _ :: _, 0, v, _ => by simp
  | a :: t, i + 1, v, h => by
      simp only [List.set, List.take, List.length_cons] at *
      rw [set_take_concat t i v (by omega)]
      simp

theorem set_drop_succ : ∀ (l : List Nat) (i v : Nat),
    (l.set i v).drop (i + 1) = l.drop (i + 1)
  | [], _, _ => by simp
  | _ :: _, 0, _ => by simp
  | a :: t, i + 1, v => by
      simp only [List.set, List.drop]
      exact set_drop_succ t i v

theorem getElem?_some_lt {l : List Nat} {i a : Nat} (h : l[i]? = some a) :
    i < l.length := by
  by_contra hge
  rw [List.getElem?_eq_none (by omega)] at h
  exact Option.noConfusion h

theorem aget_setEff_self (w : World) (eid : Nat) (e : Effect) :
    aget (setEff w eid e).effects eid = some e := by
  simp [setEff, aget_aset_self]

theorem aget_setEff_ne (w : World) (eid i : Nat) (e : Effect)
    (h : eid ≠ i) : aget (setEff w eid e).effects i = aget w.effects i := by
  simp [setEff, aget_aset_ne _ _ _ _ h]

theorem aget_setDep_self (w : World) (did : Nat) (d : Dep) :
    aget (setDep w did d).depStore did = some d := by
  simp [setDep, aget_aset_self]

theorem aget_setDep_ne (w : World) (did x : Nat) (d : Dep)
    (h : did ≠ x) : aget (setDep w did d).depStore x = aget w.depStore x := by
  simp [setDep, aget_aset_ne _ _ _ _ h]

/-! ### The heap invariants

`SInv` holds the per-dep facts: allocation freshness, the target-map /
owner correspondence, key-distinct entry tables, and the C3 content —
cleanup bookkeeping (`cleanupCount` is `0` while a dep is reachable
from `targetMap` and exactly `1` once its slot was deleted, deps absent
from the map are empty) and, except for the single dep `weak` currently
being initialised by `track`, reachable deps are non-empty. -/
structure SInv (w : World) (weak : Option Nat) : Prop where
  depFresh : ∀ did, w.nextDepId ≤ did → aget w.depStore did = none
  effFresh : ∀ i, w.nextEffectId ≤ i → aget w.effects i = none
  tmOk : ∀ tk did, aget w.targetMap tk = some did →
    ∃ d, aget w.depStore did = some d ∧ d.owner = tk
  depKeys : ∀ did d, aget w.depStore did = some d → KeysDistinct d.entries
  depCnt : ∀ did d, aget w.depStore did = some d →
    (aget w.targetMap d.owner = some did → d.cleanupCount = 0) ∧
    (aget w.targetMap d.owner ≠ some did →
      d.entries = [] ∧ d.cleanupCount = 1)
  depNE : ∀ did d, aget w.depStore did = some d →
    aget w.targetMap d.owner = some did → weak = some did ∨ d.entries ≠ []

/-- Entries of effects other than the running one are accurate. -/
def DepOthers (w : World) (eid : Nat) : Prop :=
  ∀ did d, aget w.depStore did = some d →
    ∀ i t0, aget d.entries i = some t0 → i ≠ eid →
      ∃ e2, aget w.effects i = some e2 ∧ t0 = e2.trackId ∧ did ∈ e2.deps

/-- Effects other than the running one satisfy the quiescent effect
invariant. -/
def OthersOk (w : World) (eid : Nat) : Prop :=
  ∀ i e2, aget w.effects i = some e2 → i ≠ eid →
    e2.depsLength = e2.deps.length ∧
    e2.deps.Pairwise (fun a b => a ≠ b) ∧
    (∀ did ∈ e2.deps, ∃ d, aget w.depStore did = some d ∧
      aget d.entries i = some e2.trackId) ∧
    (e2.active = false → e2.deps = [])

/-- State of the running effect `e` in the middle of a run, after the
reads `rs` have been tracked: `deps.take depsLength` is the new prefix
(deduplicated, entries carrying the current `_trackId`, owners among
`rs`, still reachable from `targetMap`), `deps.drop depsLength` is the
leftover tail from the previous run, entries for `eid` with the current
`_trackId` sit exactly in the prefix and stale ones only in the tail,
and every read so far is represented in the prefix. -/
structure RunInv (w : World) (eid : Nat) (rs : List (Nat × Nat))
    (e : Effect) : Prop where
  act : e.active = true
  dlen : e.depsLength ≤ e.deps.length
  preNodup : (e.deps.take e.depsLength).Pairwise (fun a b => a ≠ b)
  sufNodup : (e.deps.drop e.depsLength).Pairwise (fun a b => a ≠ b)
  preOk : ∀ did ∈ e.deps.take e.depsLength, ∃ d,
    aget w.depStore did = some d ∧ aget d.entries eid = some e.trackId ∧
    aget w.targetMap d.owner = some did ∧ d.owner ∈ rs
  sufOk : ∀ did ∈ e.deps.drop e.depsLength, ∃ d,
    aget w.depStore did = some d
  entrySide : ∀ did d t0, aget w.depStore did = some d →
    aget d.entries eid = some t0 →
    (t0 = e.trackId → did ∈ e.deps.take e.depsLength) ∧
    (t0 ≠ e.trackId → did ∈ e.deps.drop e.depsLength)
  rsOk : ∀ tk ∈ rs, ∃ did, aget w.targetMap tk = some did ∧
    did ∈ e.deps.take e.depsLength

/-- The invariant between two reads of a running effect. -/
structure MidInv (w : World) (eid : Nat) (rs : List (Nat × Nat)) : Prop where
  store : SInv w none
  depO : DepOthers w eid
  othO : OthersOk w eid
  runE : ∃ e, aget w.effects eid = some e ∧ RunInv w eid rs e

/-- The quiescent heap invariant (no effect is mid-run). -/
structure Inv (w : World) : Prop where
  store : SInv w none
  depE : ∀ did d, aget w.depStore did = some d →
    ∀ i t0, aget d.entries i = some t0 →
      ∃ e2, aget w.effects i = some e2 ∧ t0 = e2.trackId ∧ did ∈ e2.deps
  effOk : ∀ i e2, aget w.effects i = some e2 →
    e2.depsLength = e2.deps.length ∧
    e2.deps.Pairwise (fun a b => a ≠ b) ∧
    (∀ did ∈ e2.deps, ∃ d, aget w.depStore did = some d ∧
      aget d.entries i = some e2.trackId) ∧
    (e2.active = false → e2.deps = [])

/-- What holds right after `postCleanupEffect` ended a run of `eid`
that tracked exactly the reads `rs`. -/
structure PostInv (w : World) (eid : Nat) (rs : List (Nat × Nat)) : Prop where
  inv : Inv w
  runE : ∃ e, aget w.effects eid = some e ∧
    (∀ did ∈ e.deps, ∃ d, aget w.depStore did = some d ∧
      aget d.entries eid = some e.trackId ∧
      aget w.targetMap d.owner = some did ∧ d.owner ∈ rs) ∧
    (∀ tk ∈ rs, ∃ did, aget w.targetMap tk = some did ∧ did ∈ e.deps) ∧
    (∀ did d t0, aget w.depStore did = some d →
      aget d.entries eid = some t0 → did ∈ e.deps ∧ t0 = e.trackId)

theorem sinv_weaken {w : World} (x : Nat) (h : SInv w none) :
    SInv w (some x) := by
  refine ⟨h.depFresh, h.effFresh, h.tmOk, h.depKeys, h.depCnt, ?_⟩
  intro did d hd hp
  exact Or.inr ((h.depNE did d hd hp).resolve_left
    (fun hc => Option.noConfusion hc))

theorem inv_init : Inv initWorld := by
  refine ⟨⟨?_, ?_, ?_, ?_, ?_, ?_⟩, ?_, ?_⟩ <;>
    (intros; simp_all [initWorld, aget])

theorem inv_newEffect {w : World} (hi : Inv w) : Inv (newEffect w) := by
  have heffnew : aget w.effects w.nextEffectId = none :=
    hi.store.effFresh _ le_rfl
  refine ⟨⟨hi.store.depFresh, ?_, hi.store.tmOk, hi.store.depKeys,
    hi.store.depCnt, hi.store.depNE⟩, ?_, ?_⟩
  · intro i hge
    have hne : w.nextEffectId ≠ i := by
      simp only [newEffect] at hge; omega
    show aget (aset w.effects w.nextEffectId _) i = none
    rw [aget_aset_ne _ _ _ _ hne]
    exact hi.store.effFresh i (by simp only [newEffect] at hge; omega)
  · intro did d hd i t0 hent
    obtain ⟨e2, he2, ht0, hmem⟩ := hi.depE did d hd i t0 hent
    have hne : w.nextEffectId ≠ i := by
      intro hc
      rw [← hc] at he2
      rw [heffnew] at he2
      exact Option.noConfusion he2
    refine ⟨e2, ?_, ht0, hmem⟩
    show aget (aset w.effects w.nextEffectId _) i = some e2
    rw [aget_aset_ne _ _ _ _ hne]
    exact he2
  · intro i e2 he2
    by_cases hni : w.nextEffectId = i
    · subst hni
      have : aget (newEffect w).effects w.nextEffectId
          = some { active := true, deps := [], depsLength := 0,
                   trackId := 0, dirtyLevel := Dirty, onStopCount := 0 } := by
        show aget (aset w.effects w.nextEffectId _) w.nextEffectId = _
        rw [aget_aset_self]
      rw [this] at he2
      cases he2
      refine ⟨rfl, by simp, by simp, fun _ => rfl⟩
    · have he2' : aget w.effects i = some e2 := by
        rw [show aget (newEffect w).effects i
            = aget (aset w.effects w.nextEffectId _) i from rfl,
          aget_aset_ne _ _ _ _ hni] at he2
        exact he2
      exact hi.effOk i e2 he2'

theorem inv_preCleanup {w : World} {eid : Nat} {e : Effect} (hi : Inv w)
    (he : aget w.effects eid = some e) (ha : e.active = true) :
    MidInv (preCleanupEffect w eid) eid [] := by
  have heq : preCleanupEffect w eid
      = setEff w eid { e with trackId := e.trackId + 1, depsLength := 0 } := by
    unfold preCleanupEffect; rw [he]
  rw [heq]
  have heidlt : ¬ w.nextEffectId ≤ eid := by
    intro hge
    rw [hi.store.effFresh eid hge] at he
    exact Option.noConfusion he
  obtain ⟨-, hnodup, hdeps, -⟩ := hi.effOk eid e he
  refine ⟨⟨hi.store.depFresh, ?_, hi.store.tmOk, hi.store.depKeys,
    hi.store.depCnt, hi.store.depNE⟩, ?_, ?_, ?_⟩
  · intro i hge
    have hge2 : w.nextEffectId ≤ i := hge
    have hne : eid ≠ i := by omega
    rw [aget_setEff_ne _ _ _ _ hne]
    exact hi.store.effFresh i hge2
  · intro did d hd i t0 hent hnei
    obtain ⟨e2, he2, ht0, hmem⟩ := hi.depE did d hd i t0 hent
    exact ⟨e2, by rw [aget_setEff_ne _ _ _ _ (Ne.symm hnei)]; exact he2,
      ht0, hmem⟩
  · intro i e2 he2 hnei
    rw [aget_setEff_ne _ _ _ _ (Ne.symm hnei)] at he2
    exact hi.effOk i e2 he2
  · refine ⟨{ e with trackId := e.trackId + 1, depsLength := 0 },
      aget_setEff_self _ _ _, ha, Nat.zero_le _, by simp, ?_, ?_, ?_, ?_, ?_⟩
    · simpa using hnodup
    · intro did hmem
      simp at hmem
    · intro did hmem
      rw [List.drop_zero] at hmem
      obtain ⟨d, hd, -⟩ := hdeps did hmem
      exact ⟨d, hd⟩
    · intro did d t0 hd hent
      obtain ⟨e2, he2, ht0, hmem⟩ := hi.depE did d hd eid t0 hent
      rw [he] at he2
      cases he2
      constructor
      · intro hcur
        have hcontra : e.trackId = e.trackId + 1 := ht0.symm.trans hcur
        omega
      · intro _
        rw [List.drop_zero]
        exact hmem
    · intro tk hmem
      simp at hmem

/-! ### `cleanupDepEffect`: case analysis and invariant preservation -/

theorem aset_aset {κ α : Type} [DecidableEq κ] (l : List (κ × α)) (k : κ)
    (v v' : α) : aset (aset l k v) k v' = aset l k v' := by
  induction l with
  | nil => simp [aset]
  | cons p t ih =>
    by_cases h : p.1 = k
    · simp [aset, h]
    · simp [aset, h, ih]

/-- `cleanupDepEffect(dep, effect)` either leaves the world unchanged
(no entry for the effect, or an entry carrying the current `_trackId`),
or deletes a stale entry — plus, when the dep thereby became empty, runs
its cleanup closure (deleting the `(target, key)` slot and bumping the
ghost counter). -/
theorem cleanupDepEffect_cases (w : World) (od eid : Nat) (e : Effect)
    (he : aget w.effects eid = some e) :
    (cleanupDepEffect w od eid = w ∧
      ∀ d0 t0, aget w.depStore od = some d0 →
        aget d0.entries eid = some t0 → t0 = e.trackId) ∨
    (∃ d0 t0, aget w.depStore od = some d0 ∧
      aget d0.entries eid = some t0 ∧ t0 ≠ e.trackId ∧
      ((adel d0.entries eid ≠ [] ∧
        cleanupDepEffect w od eid
          = setDep w od { d0 with entries := adel d0.entries eid }) ∨
       (adel d0.entries eid = [] ∧
        cleanupDepEffect w od eid
          = { w with
              targetMap := adel w.targetMap d0.owner,
              depStore := aset w.depStore od
                { entries := [], owner := d0.owner,
                  cleanupCount := d0.cleanupCount + 1 } }))) := by
  cases hd : aget w.depStore od with
  | none =>
    left
    constructor
    · unfold cleanupDepEffect
      rw [hd]
    · intro d0 t0 hd0
      exact absurd hd0 (fun hc => Option.noConfusion hc)
  | some d =>
    cases hent : aget d.entries eid with
    | none =>
      left
      constructor
      · unfold cleanupDepEffect
        rw [hd, he]
        dsimp only
        rw [hent]
      · intro d0 t0 hd0 hent0
        cases hd0
        rw [hent] at hent0
        exact absurd hent0 (fun hc => Option.noConfusion hc)
    | some t0 =>
      by_cases htid : e.trackId = t0
      · left
        constructor
        · unfold cleanupDepEffect
          rw [hd, he]
          dsimp only
          rw [hent]
          simp [htid]
        · intro d0 t0' hd0 hent0
          cases hd0
          rw [hent] at hent0
          cases hent0
          exact htid.symm
      · right
        refine ⟨d, t0, rfl, hent, fun hc => htid hc.symm, ?_⟩
        have hstep : cleanupDepEffect w od eid
            = (if (adel d.entries eid).length = 0 then
                depCleanup (setDep w od { d with entries := adel d.entries eid }) od
              else setDep w od { d with entries := adel d.entries eid }) := by
          unfold cleanupDepEffect
          rw [hd, he]
          dsimp only
          rw [hent]
          dsimp only
          rw [if_pos htid]
        by_cases hnil : adel d.entries eid = []
        · right
          refine ⟨hnil, ?_⟩
          rw [hstep, if_pos (by rw [hnil]; rfl)]
          unfold depCleanup
          rw [aget_setDep_self]
          simp only [setDep]
          rw [aset_aset]
          rw [hnil]
        · left
          refine ⟨hnil, ?_⟩
          rw [hstep, if_neg (by simpa using hnil)]

theorem cde_sinv {w : World} {od eid : Nat} {e : Effect}
    (he : aget w.effects eid = some e) (hs : SInv w none) :
    SInv (cleanupDepEffect w od eid) none := by
  rcases cleanupDepEffect_cases w od eid e he with ⟨heq, -⟩ |
    ⟨d0, t0, hd0, hent, -, hbr⟩
  · rw [heq]; exact hs
  · have hodlt : ¬ w.nextDepId ≤ od := by
      intro hge
      rw [hs.depFresh od hge] at hd0
      exact Option.noConfusion hd0
    have hd0ne : d0.entries ≠ [] := by
      intro hc
      rw [hc] at hent
      exact Option.noConfusion hent
    have hpres : aget w.targetMap d0.owner = some od := by
      by_cases hp : aget w.targetMap d0.owner = some od
      · exact hp
      · exact absurd ((hs.depCnt od d0 hd0).2 hp).1 hd0ne
    rcases hbr with ⟨hnnil, heq⟩ | ⟨hnil, heq⟩
    · rw [heq]
      refine ⟨?_, hs.effFresh, ?_, ?_, ?_, ?_⟩
      · intro did hge
        have hne : od ≠ did := by
          intro hc; rw [hc] at hodlt; exact hodlt hge
        rw [aget_setDep_ne _ _ _ _ hne]
        exact hs.depFresh did hge
      · intro tk did htk
        obtain ⟨d, hd, hown⟩ := hs.tmOk tk did htk
        by_cases hdid : od = did
        · subst hdid
          rw [hd0] at hd
          cases hd
          exact ⟨_, aget_setDep_self _ _ _, hown⟩
        · rw [← aget_setDep_ne w od did _ hdid] at hd
          exact ⟨d, hd, hown⟩
      · intro did d hd
        by_cases hdid : od = did
        · subst hdid
          rw [aget_setDep_self] at hd
          cases hd
          exact keysDistinct_adel _ _ (hs.depKeys od d0 hd0)
        · rw [aget_setDep_ne _ _ _ _ hdid] at hd
          exact hs.depKeys did d hd
      · intro did d hd
        by_cases hdid : od = did
        · subst hdid
          rw [aget_setDep_self] at hd
          cases hd
          constructor
          · intro _
            exact (hs.depCnt od d0 hd0).1 hpres
          · intro habs
            exact absurd hpres habs
        · rw [aget_setDep_ne _ _ _ _ hdid] at hd
          exact hs.depCnt did d hd
      · intro did d hd hp
        by_cases hdid : od = did
        · subst hdid
          rw [aget_setDep_self] at hd
          cases hd
          exact Or.inr hnnil
        · rw [aget_setDep_ne _ _ _ _ hdid] at hd
          exact hs.depNE did d hd hp
    · rw [heq]
      have hcnt0 : d0.cleanupCount = 0 := (hs.depCnt od d0 hd0).1 hpres
      refine ⟨?_, hs.effFresh, ?_, ?_, ?_, ?_⟩
      · intro did hge
        show aget (aset w.depStore od _) did = none
        have hne : od ≠ did := by
          intro hc; rw [hc] at hodlt; exact hodlt hge
        rw [aget_aset_ne _ _ _ _ hne]
        exact hs.depFresh did hge
      · intro tk did htk
        have htk' : aget (adel w.targetMap d0.owner) tk = some did := htk
        by_cases htko : d0.owner = tk
        · rw [← htko, aget_adel_self] at htk'
          exact absurd htk' (fun hc => Option.noConfusion hc)
        · rw [aget_adel_ne _ _ _ htko] at htk'
          obtain ⟨d, hd, hown⟩ := hs.tmOk tk did htk'
          have hdid : od ≠ did := by
            intro hc
            subst hc
            rw [hd0] at hd
            cases hd
            exact htko hown
          show ∃ d, aget (aset w.depStore od _) did = some d ∧ d.owner = tk
          rw [aget_aset_ne _ _ _ _ hdid]
          exact ⟨d, hd, hown⟩
      · intro did d hd
        have hd' : aget (aset w.depStore od
            { entries := [], owner := d0.owner,
              cleanupCount := d0.cleanupCount + 1 }) did = some d := hd
        by_cases hdid : od = did
        · subst hdid
          rw [aget_aset_self] at hd'
          cases hd'
          simp [KeysDistinct]
        · rw [aget_aset_ne _ _ _ _ hdid] at hd'
          exact hs.depKeys did d hd'
      · intro did d hd
        have hd' : aget (aset w.depStore od
            { entries := [], owner := d0.owner,
              cleanupCount := d0.cleanupCount + 1 }) did = some d := hd
        by_cases hdid : od = did
        · subst hdid
          rw [aget_aset_self] at hd'
          cases hd'
          constructor
          · intro hpres'
            have : aget (adel w.targetMap d0.owner) d0.owner = none :=
              aget_adel_self _ _
            rw [show aget ({ w with
                targetMap := adel w.targetMap d0.owner,
                depStore := aset w.depStore od
                  { entries := [], owner := d0.owner,
                    cleanupCount := d0.cleanupCount + 1 } } :
                World).targetMap
              ({ entries := ([] : List (Nat × Nat)), owner := d0.owner,
                 cleanupCount := d0.cleanupCount + 1 } : Dep).owner
              = aget (adel w.targetMap d0.owner) d0.owner from rfl, this]
                at hpres'
            exact absurd hpres' (fun hc => Option.noConfusion hc)
          · intro _
            exact ⟨rfl, by rw [hcnt0]⟩
        · rw [aget_aset_ne _ _ _ _ hdid] at hd'
          have hcnt := hs.depCnt did d hd'
          constructor
          · intro hpres'
            have hpres2 : aget (adel w.targetMap d0.owner) d.owner
                = some did := hpres'
            by_cases howner : d0.owner = d.owner
            · rw [← howner, aget_adel_self] at hpres2
              exact absurd hpres2 (fun hc => Option.noConfusion hc)
            · rw [aget_adel_ne _ _ _ howner] at hpres2
              exact hcnt.1 hpres2
          · intro habs
            have habs2 : ¬ aget (adel w.targetMap d0.owner) d.owner
                = some did := habs
            by_cases howner : d0.owner = d.owner
            · refine hcnt.2 ?_
              rw [← howner, hpres]
              intro hc
              cases hc
              exact hdid rfl
            · rw [aget_adel_ne _ _ _ howner] at habs2
              exact hcnt.2 habs2
      · intro did d hd hp
        have hd' : aget (aset w.depStore od
            { entries := [], owner := d0.owner,
              cleanupCount := d0.cleanupCount + 1 }) did = some d := hd
        by_cases hdid : od = did
        · subst hdid
          rw [aget_aset_self] at hd'
          cases hd'
          have hp2 : aget (adel w.targetMap d0.owner) d0.owner = some od := hp
          rw [aget_adel_self] at hp2
          exact absurd hp2 (fun hc => Option.noConfusion hc)
        · rw [aget_aset_ne _ _ _ _ hdid] at hd'
          have hp2 : aget (adel w.targetMap d0.owner) d.owner = some did := hp
          by_cases howner : d0.owner = d.owner
          · rw [← howner, aget_adel_self] at hp2
            exact absurd hp2 (fun hc => Option.noConfusion hc)
          · rw [aget_adel_ne _ _ _ howner] at hp2
            exact hs.depNE did d hd' hp2

theorem cde_depOthers {w : World} {od eid : Nat} {e : Effect}
    (he : aget w.effects eid = some e) (hdo : DepOthers w eid) :
    DepOthers (cleanupDepEffect w od eid) eid := by
  rcases cleanupDepEffect_cases w od eid e he with ⟨heq, -⟩ |
    ⟨d0, t0, hd0, hent, -, hbr⟩
  · rw [heq]; exact hdo
  · have heff : (cleanupDepEffect w od eid).effects = w.effects :=
      cleanupDepEffect_effects w od eid
    intro did d hd i ti hent2 hnei
    rw [heff]
    rcases hbr with ⟨-, heq⟩ | ⟨-, heq⟩
    · rw [heq] at hd
      by_cases hdid : od = did
      · subst hdid
        rw [aget_setDep_self] at hd
        cases hd
        rw [aget_adel_ne _ _ _ (Ne.symm hnei)] at hent2
        exact hdo od d0 hd0 i ti hent2 hnei
      · rw [aget_setDep_ne _ _ _ _ hdid] at hd
        exact hdo did d hd i ti hent2 hnei
    · rw [heq] at hd
      have hd' : aget (aset w.depStore od
          { entries := [], owner := d0.owner,
            cleanupCount := d0.cleanupCount + 1 }) did = some d := hd
      by_cases hdid : od = did
      · subst hdid
        rw [aget_aset_self] at hd'
        cases hd'
        simp [aget] at hent2
      · rw [aget_aset_ne _ _ _ _ hdid] at hd'
        exact hdo did d hd' i ti hent2 hnei

theorem cde_othersOk {w : World} {od eid : Nat} {e : Effect}
    (he : aget w.effects eid = some e) (hoo : OthersOk w eid) :
    OthersOk (cleanupDepEffect w od eid) eid := by
  rcases cleanupDepEffect_cases w od eid e he with ⟨heq, -⟩ |
    ⟨d0, t0, hd0, hent, -, hbr⟩
  · rw [heq]; exact hoo
  · have heff : (cleanupDepEffect w od eid).effects = w.effects :=
      cleanupDepEffect_effects w od eid
    intro i e2 he2 hnei
    rw [heff] at he2
    obtain ⟨hlen, hnodup, hdeps, hinact⟩ := hoo i e2 he2 hnei
    refine ⟨hlen, hnodup, ?_, hinact⟩
    intro did hmem
    obtain ⟨d, hd, hentd⟩ := hdeps did hmem
    rcases hbr with ⟨-, heq⟩ | ⟨hnil, heq⟩
    · rw [heq]
      by_cases hdid : od = did
      · subst hdid
        rw [hd0] at hd
        cases hd
        refine ⟨_, aget_setDep_self _ _ _, ?_⟩
        rw [aget_adel_ne _ _ _ (Ne.symm hnei)]
        exact hentd
      · refine ⟨d, ?_, hentd⟩
        rw [aget_setDep_ne _ _ _ _ hdid]
        exact hd
    · by_cases hdid : od = did
      · subst hdid
        rw [hd0] at hd
        cases hd
        exfalso
        have hsurv : aget (adel d0.entries eid) i = some e2.trackId := by
          rw [aget_adel_ne _ _ _ (Ne.symm hnei)]
          exact hentd
        rw [hnil] at hsurv
        exact Option.noConfusion hsurv
      · rw [heq]
        refine ⟨d, ?_, hentd⟩
        show aget (aset w.depStore od _) did = some d
        rw [aget_aset_ne _ _ _ _ hdid]
        exact hd

/-! ### `trackEffect` preserves the mid-run invariant -/

theorem getElem_of_getElem? {l : List Nat} {i a : Nat}
    (h : l[i]? = some a) (hlt : i < l.length) : l[i] = a := by
  rw [List.getElem?_eq_getElem hlt] at h
  injection h

theorem midInv_setEff (W : World) (eid : Nat) (rs' : List (Nat × Nat))
    (e0 e' : Effect) (hs : SInv W none) (hdo : DepOthers W eid)
    (hoo : OthersOk W eid) (he0 : aget W.effects eid = some e0)
    (hR : RunInv W eid rs' e') :
    MidInv (setEff W eid e') eid rs' := by
  have heidlt : ¬ W.nextEffectId ≤ eid := fun hge => by
    rw [hs.effFresh eid hge] at he0
    exact Option.noConfusion he0
  refine ⟨⟨hs.depFresh, ?_, hs.tmOk, hs.depKeys, hs.depCnt, hs.depNE⟩,
    ?_, ?_, e', aget_setEff_self _ _ _, ?_⟩
  · intro i hge
    have hge2 : W.nextEffectId ≤ i := hge
    rw [aget_setEff_ne _ _ _ _ (by omega)]
    exact hs.effFresh i hge2
  · intro did d hd i t0 hent hnei
    obtain ⟨e2, he2, ht, hm⟩ := hdo did d hd i t0 hent hnei
    exact ⟨e2, by rw [aget_setEff_ne _ _ _ _ (Ne.symm hnei)]; exact he2,
      ht, hm⟩
  · intro i e2 he2 hnei
    rw [aget_setEff_ne _ _ _ _ (Ne.symm hnei)] at he2
    exact hoo i e2 he2 hnei
  · exact ⟨hR.act, hR.dlen, hR.preNodup, hR.sufNodup, hR.preOk, hR.sufOk,
      hR.entrySide, hR.rsOk⟩

/-- `trackEffect` on the dep found (or freshly created) by `track` for
the read `(t, k)` preserves the mid-run invariant, extending the read
list.  The store invariant is weakened at `did` so that the lemma also
covers the dep freshly allocated by `track` (still empty before
`trackEffect` records the first edge). -/
theorem midInv_trackEffect (w : World) (eid did t k : Nat)
    (rs : List (Nat × Nat)) (e : Effect) (d : Dep)
    (hs : SInv w (some did)) (hdo : DepOthers w eid) (hoo : OthersOk w eid)
    (he : aget w.effects eid = some e) (hR : RunInv w eid rs e)
    (hd : aget w.depStore did = some d) (hown : d.owner = (t, k))
    (htm : aget w.targetMap (t, k) = some did) :
    MidInv (trackEffect w eid did) eid (rs ++ [(t, k)]) := by
  by_cases hdcond : aget d.entries eid ≠ some e.trackId
  case neg =>
    -- already tracked in this run: `trackEffect` returns early
    rw [not_not] at hdcond
    have heq : trackEffect w eid did = w := by
      unfold trackEffect
      rw [he, hd]
      dsimp only
      rw [if_neg (by simp [hdcond])]
    rw [heq]
    have hmem : did ∈ e.deps.take e.depsLength :=
      (hR.entrySide did d e.trackId hd hdcond).1 rfl
    refine ⟨⟨hs.depFresh, hs.effFresh, hs.tmOk, hs.depKeys, hs.depCnt, ?_⟩,
      hdo, hoo, e, he, ?_⟩
    · intro x dx hdx hp
      rcases hs.depNE x dx hdx hp with hweak | hne
      · cases hweak
        refine Or.inr (fun hc => ?_)
        rw [hd] at hdx
        cases hdx
        rw [hc] at hdcond
        simp [aget] at hdcond
      · exact Or.inr hne
    · refine ⟨hR.act, hR.dlen, hR.preNodup, hR.sufNodup, ?_, hR.sufOk,
        hR.entrySide, ?_⟩
      · intro x hx
        obtain ⟨d2, h1, h2, h3, h4⟩ := hR.preOk x hx
        exact ⟨d2, h1, h2, h3, List.mem_append_left _ h4⟩
      · intro tk0 htk0
        rcases List.mem_append.mp htk0 with htk0 | htk0
        · obtain ⟨x, h1, h2⟩ := hR.rsOk tk0 htk0
          exact ⟨x, h1, h2⟩
        · rw [List.mem_singleton] at htk0
          subst htk0
          exact ⟨did, htm, hmem⟩
  case pos =>
    set d' : Dep := { d with entries := aset d.entries eid e.trackId }
      with hdPdef
    set W2 : World := setDep w did d' with hW2def
    have hdPentself : aget d'.entries eid = some e.trackId := by
      rw [hdPdef]
      exact aget_aset_self _ _ _
    have hdPentne : ∀ i, eid ≠ i → aget d'.entries i = aget d.entries i := by
      intro i h
      rw [hdPdef]
      exact aget_aset_ne _ _ _ _ h
    have hdPowner : d'.owner = (t, k) := hown
    have hW2d : aget W2.depStore did = some d' := by
      rw [hW2def]
      exact aget_setDep_self _ _ _
    have hW2ne : ∀ x, did ≠ x →
        aget W2.depStore x = aget w.depStore x := by
      intro x h
      rw [hW2def]
      exact aget_setDep_ne _ _ _ _ h
    have hW2eff : aget W2.effects eid = some e := he
    have hW2tmx : ∀ tk0, aget W2.targetMap tk0 = aget w.targetMap tk0 :=
      fun _ => rfl
    have hdprenot : did ∉ e.deps.take e.depsLength := by
      intro hmem
      obtain ⟨d2, hd2, hent2, -, -⟩ := hR.preOk did hmem
      rw [hd] at hd2
      cases hd2
      exact hdcond hent2
    have hdidlt : ¬ w.nextDepId ≤ did := fun hge => by
      rw [hs.depFresh did hge] at hd
      exact Option.noConfusion hd
    have hW2s : SInv W2 none := by
      refine ⟨?_, hs.effFresh, ?_, ?_, ?_, ?_⟩
      · intro x hge
        have hge2 : w.nextDepId ≤ x := hge
        have hne : did ≠ x := by omega
        rw [hW2ne x hne]
        exact hs.depFresh x hge2
      · intro tk0 x htk0
        have htk0' : aget w.targetMap tk0 = some x := htk0
        obtain ⟨dx, hdx, hox⟩ := hs.tmOk tk0 x htk0'
        by_cases hx : did = x
        · subst hx
          rw [hd] at hdx
          cases hdx
          exact ⟨d', hW2d, hox⟩
        · rw [← hW2ne x hx] at hdx
          exact ⟨dx, hdx, hox⟩
      · intro x dx hdx
        by_cases hx : did = x
        · subst hx
          rw [hW2d] at hdx
          cases hdx
          rw [hdPdef]
          exact keysDistinct_aset _ _ _ (hs.depKeys did d hd)
        · rw [hW2ne x hx] at hdx
          exact hs.depKeys x dx hdx
      · intro x dx hdx
        by_cases hx : did = x
        · subst hx
          rw [hW2d] at hdx
          cases hdx
          have hp : aget W2.targetMap d'.owner = some did := by
            rw [hW2tmx, hdPowner]
            exact htm
          constructor
          · intro _
            exact (hs.depCnt did d hd).1 (by rw [hown]; exact htm)
          · intro habs
            exact absurd hp habs
        · rw [hW2ne x hx] at hdx
          exact hs.depCnt x dx hdx
      · intro x dx hdx hp
        by_cases hx : did = x
        · subst hx
          rw [hW2d] at hdx
          cases hdx
          rw [hdPdef]
          exact Or.inr (aset_ne_nil _ _ _)
        · rw [hW2ne x hx] at hdx
          have hp' : aget w.targetMap dx.owner = some x := hp
          rcases hs.depNE x dx hdx hp' with hweak | hne
          · exfalso
            have : did = x := by injection hweak
            exact hx this
          · exact Or.inr hne
    have hW2do : DepOthers W2 eid := by
      intro x dx hdx i t0 hent hnei
      by_cases hx : did = x
      · subst hx
        rw [hW2d] at hdx
        cases hdx
        rw [hdPentne i (Ne.symm hnei)] at hent
        exact hdo did d hd i t0 hent hnei
      · rw [hW2ne x hx] at hdx
        exact hdo x dx hdx i t0 hent hnei
    have hW2oo : OthersOk W2 eid := by
      intro i e2 he2 hnei
      have he2' : aget w.effects i = some e2 := he2
      obtain ⟨h1, h2, h3, h4⟩ := hoo i e2 he2' hnei
      refine ⟨h1, h2, ?_, h4⟩
      intro x hmem
      obtain ⟨dx, hdx, hentx⟩ := h3 x hmem
      by_cases hx : did = x
      · subst hx
        rw [hd] at hdx
        cases hdx
        refine ⟨d', hW2d, ?_⟩
        rw [hdPentne i (Ne.symm hnei)]
        exact hentx
      · rw [← hW2ne x hx] at hdx
        exact ⟨dx, hdx, hentx⟩
    have hpre_transfer : ∀ x ∈ e.deps.take e.depsLength, ∃ d2,
        aget W2.depStore x = some d2 ∧
        aget d2.entries eid = some e.trackId ∧
        aget W2.targetMap d2.owner = some x ∧
        d2.owner ∈ rs ++ [(t, k)] := by
      intro x hmem
      obtain ⟨d2, hd2, hent2, htm2, hrs2⟩ := hR.preOk x hmem
      have hxne : did ≠ x := fun hc => hdprenot (hc ▸ hmem)
      refine ⟨d2, ?_, hent2, ?_, List.mem_append_left _ hrs2⟩
      · rw [hW2ne x hxne]
        exact hd2
      · rw [hW2tmx]
        exact htm2
    have hdid_pre_new : ∃ d2, aget W2.depStore did = some d2 ∧
        aget d2.entries eid = some e.trackId ∧
        aget W2.targetMap d2.owner = some did ∧
        d2.owner ∈ rs ++ [(t, k)] := by
      refine ⟨d', hW2d, hdPentself, ?_, ?_⟩
      · rw [hW2tmx, hdPowner]
        exact htm
      · rw [hdPowner]
        exact List.mem_append_right _ (List.mem_singleton.mpr rfl)
    cases hod : e.deps[e.depsLength]? with
    | none =>
      have hlenle : e.deps.length ≤ e.depsLength := by
        by_contra hlt
        rw [List.getElem?_eq_getElem (by omega)] at hod
        exact Option.noConfusion hod
      have hdleq : e.depsLength = e.deps.length :=
        Nat.le_antisymm hR.dlen hlenle
      have hpreeq : e.deps.take e.depsLength = e.deps := by
        rw [hdleq, List.take_length]
      have hsufeq : e.deps.drop e.depsLength = [] := by
        rw [hdleq, List.drop_length]
      have hls : listSet e.deps e.depsLength did = e.deps ++ [did] := by
        unfold listSet
        rw [if_neg (by omega)]
      set eN : Effect := { e with deps := listSet e.deps e.depsLength did,
                                  depsLength := e.depsLength + 1 }
        with heNdef
      have heNdeps : eN.deps = e.deps ++ [did] := by
        rw [heNdef]
        exact hls
      have heNdl : eN.depsLength = e.depsLength + 1 := by rw [heNdef]
      have heNpre : eN.deps.take eN.depsLength = e.deps ++ [did] := by
        rw [heNdeps, heNdl]
        refine List.take_of_length_le ?_
        rw [List.length_append, List.length_singleton]
        omega
      have heNsuf : eN.deps.drop eN.depsLength = [] := by
        rw [heNdeps, heNdl]
        refine List.drop_eq_nil_of_le ?_
        rw [List.length_append, List.length_singleton]
        omega
      have heq : trackEffect w eid did = setEff W2 eid eN := by
        unfold trackEffect
        rw [he, hd]
        dsimp only
        rw [if_pos hdcond, hod]
      rw [heq]
      apply midInv_setEff W2 eid (rs ++ [(t, k)]) e eN hW2s hW2do hW2oo hW2eff
      refine ⟨hR.act, ?_, ?_, ?_, ?_, ?_, ?_, ?_⟩
      · rw [heNdeps, heNdl, List.length_append, List.length_singleton]
        omega
      · rw [heNpre, List.pairwise_append]
        refine ⟨by rw [← hpreeq]; exact hR.preNodup, by simp, ?_⟩
        intro a ha b hb hc
        rw [List.mem_singleton] at hb
        subst hb
        subst hc
        rw [← hpreeq] at ha
        exact hdprenot ha
      · rw [heNsuf]
        exact List.Pairwise.nil
      · intro x hx
        rw [heNpre] at hx
        rcases List.mem_append.mp hx with hx | hx
        · rw [← hpreeq] at hx
          exact hpre_transfer x hx
        · rw [List.mem_singleton] at hx
          subst hx
          exact hdid_pre_new
      · intro x hx
        rw [heNsuf] at hx
        simp at hx
      · intro x dx t0 hdx hent
        by_cases hx : did = x
        · subst hx
          rw [hW2d] at hdx
          cases hdx
          rw [hdPentself] at hent
          have ht0 : t0 = e.trackId := by injection hent with h; exact h.symm
          constructor
          · intro _
            rw [heNpre]
            exact List.mem_append_right _ (List.mem_singleton.mpr rfl)
          · intro hne
            exact absurd ht0 hne
        · rw [hW2ne x hx] at hdx
          have hside := hR.entrySide x dx t0 hdx hent
          constructor
          · intro hcur
            rw [heNpre]
            exact List.mem_append_left _ (hpreeq ▸ hside.1 hcur)
          · intro hne
            exfalso
            have := hside.2 hne
            rw [hsufeq] at this
            simp at this
      · intro tk0 htk0
        rcases List.mem_append.mp htk0 with htk0 | htk0
        · obtain ⟨x, h1, h2⟩ := hR.rsOk tk0 htk0
          refine ⟨x, by rw [hW2tmx]; exact h1, ?_⟩
          rw [heNpre]
          exact List.mem_append_left _ (hpreeq ▸ h2)
        · rw [List.mem_singleton] at htk0
          subst htk0
          refine ⟨did, by rw [hW2tmx]; exact htm, ?_⟩
          rw [heNpre]
          exact List.mem_append_right _ (List.mem_singleton.mpr rfl)
    | some od =>
      have hlt : e.depsLength < e.deps.length := getElem?_some_lt hod
      have hov : e.deps[e.depsLength] = od := getElem_of_getElem? hod hlt
      have hsufcons : e.deps.drop e.depsLength
          = od :: e.deps.drop (e.depsLength + 1) := by
        rw [List.drop_eq_getElem_cons hlt, hov]
      have hsn : (od :: e.deps.drop (e.depsLength + 1)).Pairwise
          (fun a b => a ≠ b) := by
        rw [← hsufcons]
        exact hR.sufNodup
      have hpresucc : e.deps.take (e.depsLength + 1)
          = e.deps.take e.depsLength ++ [od] := by
        rw [List.take_succ, hod]
        rfl
      by_cases hodd : od = did
      · -- the positional slot already holds this dep: only bump the cursor
        subst hodd
        set eS : Effect := { e with depsLength := e.depsLength + 1 }
          with heSdef
        have heSdeps : eS.deps = e.deps := by rw [heSdef]
        have heSdl : eS.depsLength = e.depsLength + 1 := by rw [heSdef]
        have heSpre : eS.deps.take eS.depsLength
            = e.deps.take e.depsLength ++ [od] := by
          rw [heSdeps, heSdl]
          exact hpresucc
        have heSsuf : eS.deps.drop eS.depsLength
            = e.deps.drop (e.depsLength + 1) := by
          rw [heSdeps, heSdl]
        have heq : trackEffect w eid od = setEff W2 eid eS := by
          unfold trackEffect
          rw [he, hd]
          dsimp only
          rw [if_pos hdcond, hod]
          dsimp only
          rw [if_neg (by simp)]
        rw [heq]
        apply midInv_setEff W2 eid (rs ++ [(t, k)]) e eS hW2s hW2do hW2oo
          hW2eff
        refine ⟨hR.act, ?_, ?_, ?_, ?_, ?_, ?_, ?_⟩
        · rw [heSdeps, heSdl]
          omega
        · rw [heSpre, List.pairwise_append]
          refine ⟨hR.preNodup, by simp, ?_⟩
          intro a ha b hb hc
          rw [List.mem_singleton] at hb
          subst hb
          subst hc
          exact hdprenot ha
        · rw [heSsuf]
          exact hsn.of_cons
        · intro x hx
          rw [heSpre] at hx
          rcases List.mem_append.mp hx with hx | hx
          · exact hpre_transfer x hx
          · rw [List.mem_singleton] at hx
            subst hx
            exact hdid_pre_new
        · intro x hx
          rw [heSsuf] at hx
          have hxod : od ≠ x := (List.pairwise_cons.mp hsn).1 x hx
          have hx' : x ∈ e.deps.drop e.depsLength := by
            rw [hsufcons]
            exact List.mem_cons_of_mem _ hx
          obtain ⟨d2, hd2⟩ := hR.sufOk x hx'
          refine ⟨d2, ?_⟩
          rw [hW2ne x hxod]
          exact hd2
        · intro x dx t0 hdx hent
          by_cases hx : od = x
          · subst hx
            rw [hW2d] at hdx
            cases hdx
            rw [hdPentself] at hent
            have ht0 : t0 = e.trackId := by injection hent with h; exact h.symm
            constructor
            · intro _
              rw [heSpre]
              exact List.mem_append_right _ (List.mem_singleton.mpr rfl)
            · intro hne
              exact absurd ht0 hne
          · rw [hW2ne x hx] at hdx
            have hside := hR.entrySide x dx t0 hdx hent
            constructor
            · intro hcur
              rw [heSpre]
              exact List.mem_append_left _ (hside.1 hcur)
            · intro hne
              have := hside.2 hne
              rw [hsufcons] at this
              rw [heSsuf]
              rcases List.mem_cons.mp this with hcase | hcase
              · exact absurd hcase.symm hx
              · exact hcase
        · intro tk0 htk0
          rcases List.mem_append.mp htk0 with htk0 | htk0
          · obtain ⟨x, h1, h2⟩ := hR.rsOk tk0 htk0
            refine ⟨x, by rw [hW2tmx]; exact h1, ?_⟩
            rw [heSpre]
            exact List.mem_append_left _ h2
          · rw [List.mem_singleton] at htk0
            subst htk0
            refine ⟨od, by rw [hW2tmx]; exact htm, ?_⟩
            rw [heSpre]
            exact List.mem_append_right _ (List.mem_singleton.mpr rfl)
      · -- the positional slot holds a different dep: clean it up, replace
        set eD : Effect := { e with deps := listSet e.deps e.depsLength did,
                                    depsLength := e.depsLength + 1 }
          with heDdef
        have hlsD : listSet e.deps e.depsLength did
            = e.deps.set e.depsLength did := by
          unfold listSet
          rw [if_pos hlt]
        have heDdeps : eD.deps = e.deps.set e.depsLength did := by
          rw [heDdef]
          exact hlsD
        have heDdl : eD.depsLength = e.depsLength + 1 := by rw [heDdef]
        have heDpre : eD.deps.take eD.depsLength
            = e.deps.take e.depsLength ++ [did] := by
          rw [heDdeps, heDdl]
          exact set_take_concat _ _ _ hlt
        have heDsuf : eD.deps.drop eD.depsLength
            = e.deps.drop (e.depsLength + 1) := by
          rw [heDdeps, heDdl]
          exact set_drop_succ _ _ _
        have hdidod : did ≠ od := fun hc => hodd hc.symm
        have heq : trackEffect w eid did
            = setEff (cleanupDepEffect W2 od eid) eid eD := by
          unfold trackEffect
          rw [he, hd]
          dsimp only
          rw [if_pos hdcond, hod]
          dsimp only
          rw [if_pos hodd]
        rw [heq]
        have hW4s : SInv (cleanupDepEffect W2 od eid) none :=
          cde_sinv hW2eff hW2s
        have hW4do : DepOthers (cleanupDepEffect W2 od eid) eid :=
          cde_depOthers hW2eff hW2do
        have hW4oo : OthersOk (cleanupDepEffect W2 od eid) eid :=
          cde_othersOk hW2eff hW2oo
        have hW4eff : aget (cleanupDepEffect W2 od eid).effects eid
            = some e := by
          rw [cleanupDepEffect_effects]
          exact hW2eff
        apply midInv_setEff _ eid (rs ++ [(t, k)]) e eD hW4s hW4do hW4oo
          hW4eff
        -- remaining: RunInv (cleanupDepEffect W2 od eid) eid (rs ++ [(t,k)]) eD
        rcases cleanupDepEffect_cases W2 od eid e hW2eff with ⟨heqW, hallcur⟩ |
          ⟨d0, t0x, hd0, hent0, hstale, hbr⟩
        · -- the slot's old dep carries only current entries: no change
          rw [heqW]
          refine ⟨hR.act, ?_, ?_, ?_, ?_, ?_, ?_, ?_⟩
          · rw [heDdeps, heDdl, List.length_set]
            omega
          · rw [heDpre, List.pairwise_append]
            refine ⟨hR.preNodup, by simp, ?_⟩
            intro a ha b hb hc
            rw [List.mem_singleton] at hb
            subst hb
            subst hc
            exact hdprenot ha
          · rw [heDsuf]
            exact hsn.of_cons
          · intro x hx
            rw [heDpre] at hx
            rcases List.mem_append.mp hx with hx | hx
            · exact hpre_transfer x hx
            · rw [List.mem_singleton] at hx
              subst hx
              exact hdid_pre_new
          · intro x hx
            rw [heDsuf] at hx
            have hx' : x ∈ e.deps.drop e.depsLength := by
              rw [hsufcons]
              exact List.mem_cons_of_mem _ hx
            by_cases hxd : did = x
            · subst hxd
              exact ⟨d', hW2d⟩
            · obtain ⟨d2, hd2⟩ := hR.sufOk x hx'
              refine ⟨d2, ?_⟩
              rw [hW2ne x hxd]
              exact hd2
          · intro x dx t0 hdx hent
            by_cases hx : did = x
            · subst hx
              rw [hW2d] at hdx
              cases hdx
              rw [hdPentself] at hent
              have ht0 : t0 = e.trackId := by
                injection hent with h
                exact h.symm
              constructor
              · intro _
                rw [heDpre]
                exact List.mem_append_right _ (List.mem_singleton.mpr rfl)
              · intro hne
                exact absurd ht0 hne
            · have hdxw : aget w.depStore x = some dx := by
                rw [← hW2ne x hx]
                exact hdx
              have hside := hR.entrySide x dx t0 hdxw hent
              constructor
              · intro hcur
                rw [heDpre]
                exact List.mem_append_left _ (hside.1 hcur)
              · intro hne
                have hinsuf := hside.2 hne
                rw [hsufcons] at hinsuf
                rw [heDsuf]
                rcases List.mem_cons.mp hinsuf with hcase | hcase
                · exfalso
                  subst hcase
                  exact hne (hallcur dx t0 hdx hent)
                · exact hcase
          · intro tk0 htk0
            rcases List.mem_append.mp htk0 with htk0 | htk0
            · obtain ⟨x, h1, h2⟩ := hR.rsOk tk0 htk0
              refine ⟨x, by rw [hW2tmx]; exact h1, ?_⟩
              rw [heDpre]
              exact List.mem_append_left _ h2
            · rw [List.mem_singleton] at htk0
              subst htk0
              refine ⟨did, by rw [hW2tmx]; exact htm, ?_⟩
              rw [heDpre]
              exact List.mem_append_right _ (List.mem_singleton.mpr rfl)
        · -- the slot's old dep had a stale entry for this effect
          have hd0w : aget w.depStore od = some d0 := by
            rw [← hW2ne od hdidod]
            exact hd0
          have hodnpre : od ∉ e.deps.take e.depsLength := by
            intro hmem
            obtain ⟨d2, hd2, hent2, -, -⟩ := hR.preOk od hmem
            rw [hd0w] at hd2
            cases hd2
            rw [hent0] at hent2
            exact hstale (Option.some.inj hent2)
          have hd0ne : d0.entries ≠ [] := by
            intro hc
            rw [hc] at hent0
            simp [aget] at hent0
          have hpres0 : aget w.targetMap d0.owner = some od := by
            by_cases hp : aget w.targetMap d0.owner = some od
            · exact hp
            · exact absurd ((hs.depCnt od d0 hd0w).2 hp).1 hd0ne
          have howner0 : d0.owner ≠ (t, k) := by
            intro hc
            rw [hc, htm] at hpres0
            have : did = od := by injection hpres0
            exact hdidod this
          have hprefix_owner : ∀ x ∈ e.deps.take e.depsLength, ∀ d2,
              aget w.depStore x = some d2 → d2.owner ≠ d0.owner := by
            intro x hx d2 hd2 hc
            obtain ⟨d3, hd3, -, htm3, -⟩ := hR.preOk x hx
            rw [hd2] at hd3
            cases hd3
            rw [hc, hpres0] at htm3
            have : od = x := by injection htm3
            rw [← this] at hx
            exact hodnpre hx
          rcases hbr with ⟨hnnil, heqW⟩ | ⟨hnil, heqW⟩
          · -- entry deleted, dep still non-empty: store updated in place
            rw [heqW]
            have hvne : ∀ x, od ≠ x →
                aget (setDep W2 od
                  { d0 with entries := adel d0.entries eid }).depStore x
                = aget W2.depStore x := by
              intro x h
              exact aget_setDep_ne _ _ _ _ h
            have hvod : aget (setDep W2 od
                { d0 with entries := adel d0.entries eid }).depStore od
                = some { d0 with entries := adel d0.entries eid } :=
              aget_setDep_self _ _ _
            have hvtm : ∀ tk0, aget (setDep W2 od
                { d0 with entries := adel d0.entries eid }).targetMap tk0
                = aget w.targetMap tk0 := fun _ => rfl
            refine ⟨hR.act, ?_, ?_, ?_, ?_, ?_, ?_, ?_⟩
            · rw [heDdeps, heDdl, List.length_set]
              omega
            · rw [heDpre, List.pairwise_append]
              refine ⟨hR.preNodup, by simp, ?_⟩
              intro a ha b hb hc
              rw [List.mem_singleton] at hb
              subst hb
              subst hc
              exact hdprenot ha
            · rw [heDsuf]
              exact hsn.of_cons
            · intro x hx
              rw [heDpre] at hx
              rcases List.mem_append.mp hx with hx | hx
              · have hxod : od ≠ x := fun hc => hodnpre (hc ▸ hx)
                obtain ⟨d2, hd2, hent2, htm2, hrs2⟩ := hpre_transfer x hx
                refine ⟨d2, ?_, hent2, ?_, hrs2⟩
                · rw [hvne x hxod]
                  exact hd2
                · rw [hvtm]
                  rw [hW2tmx] at htm2
                  exact htm2
              · rw [List.mem_singleton] at hx
                rw [hx]
                obtain ⟨d2, hd2, hent2, htm2, hrs2⟩ := hdid_pre_new
                refine ⟨d2, ?_, hent2, ?_, hrs2⟩
                · rw [hvne did (Ne.symm hdidod)]
                  exact hd2
                · rw [hvtm]
                  rw [hW2tmx] at htm2
                  exact htm2
            · intro x hx
              rw [heDsuf] at hx
              have hxod : od ≠ x := (List.pairwise_cons.mp hsn).1 x hx
              have hx' : x ∈ e.deps.drop e.depsLength := by
                rw [hsufcons]
                exact List.mem_cons_of_mem _ hx
              by_cases hxd : did = x
              · refine ⟨d', ?_⟩
                rw [← hxd, hvne did (Ne.symm hdidod)]
                exact hW2d
              · obtain ⟨d2, hd2⟩ := hR.sufOk x hx'
                refine ⟨d2, ?_⟩
                rw [hvne x hxod, hW2ne x hxd]
                exact hd2
            · intro x dx t0 hdx hent
              by_cases hxod : od = x
              · subst hxod
                rw [hvod] at hdx
                cases hdx
                exfalso
                have : aget (adel d0.entries eid) eid = none :=
                  aget_adel_self _ _
                rw [this] at hent
                exact Option.noConfusion hent
              · rw [hvne x hxod] at hdx
                by_cases hx : did = x
                · subst hx
                  rw [hW2d] at hdx
                  cases hdx
                  rw [hdPentself] at hent
                  have ht0 : t0 = e.trackId := by
                    injection hent with h
                    exact h.symm
                  constructor
                  · intro _
                    rw [heDpre]
                    exact List.mem_append_right _ (List.mem_singleton.mpr rfl)
                  · intro hne
                    exact absurd ht0 hne
                · rw [hW2ne x hx] at hdx
                  have hside := hR.entrySide x dx t0 hdx hent
                  constructor
                  · intro hcur
                    rw [heDpre]
                    exact List.mem_append_left _ (hside.1 hcur)
                  · intro hne
                    have hinsuf := hside.2 hne
                    rw [hsufcons] at hinsuf
                    rw [heDsuf]
                    rcases List.mem_cons.mp hinsuf with hcase | hcase
                    · exact absurd hcase.symm hxod
                    · exact hcase
            · intro tk0 htk0
              rcases List.mem_append.mp htk0 with htk0 | htk0
              · obtain ⟨x, h1, h2⟩ := hR.rsOk tk0 htk0
                refine ⟨x, by rw [hvtm]; exact h1, ?_⟩
                rw [heDpre]
                exact List.mem_append_left _ h2
              · rw [List.mem_singleton] at htk0
                subst htk0
                refine ⟨did, by rw [hvtm]; exact htm, ?_⟩
                rw [heDpre]
                exact List.mem_append_right _ (List.mem_singleton.mpr rfl)
          · -- entry deleted and the dep became empty: cleanup ran
            rw [heqW]
            have hvne : ∀ x, od ≠ x →
                aget (aset W2.depStore od
                  { entries := [], owner := d0.owner,
                    cleanupCount := d0.cleanupCount + 1 }) x
                = aget W2.depStore x := by
              intro x h
              exact aget_aset_ne _ _ _ _ h
            have hvod : aget (aset W2.depStore od
                { entries := [], owner := d0.owner,
                  cleanupCount := d0.cleanupCount + 1 }) od
                = some { entries := [], owner := d0.owner,
                         cleanupCount := d0.cleanupCount + 1 } :=
              aget_aset_self _ _ _
            have hvtm : ∀ tk0, d0.owner ≠ tk0 →
                aget (adel W2.targetMap d0.owner) tk0
                = aget w.targetMap tk0 := by
              intro tk0 h
              rw [aget_adel_ne _ _ _ h]
              rfl
            refine ⟨hR.act, ?_, ?_, ?_, ?_, ?_, ?_, ?_⟩
            · rw [heDdeps, heDdl, List.length_set]
              omega
            · rw [heDpre, List.pairwise_append]
              refine ⟨hR.preNodup, by simp, ?_⟩
              intro a ha b hb hc
              rw [List.mem_singleton] at hb
              subst hb
              subst hc
              exact hdprenot ha
            · rw [heDsuf]
              exact hsn.of_cons
            · intro x hx
              rw [heDpre] at hx
              rcases List.mem_append.mp hx with hx | hx
              · have hxod : od ≠ x := fun hc => hodnpre (hc ▸ hx)
                have hxdid : did ≠ x := fun hc => hdprenot (hc ▸ hx)
                obtain ⟨d2, hd2, hent2, htm2, hrs2⟩ := hR.preOk x hx
                refine ⟨d2, ?_, hent2, ?_, List.mem_append_left _ hrs2⟩
                · show aget (aset W2.depStore od _) x = some d2
                  rw [hvne x hxod, hW2ne x hxdid]
                  exact hd2
                · show aget (adel W2.targetMap d0.owner) d2.owner = some x
                  rw [hvtm d2.owner
                    (fun hc => hprefix_owner x hx d2 hd2 hc.symm)]
                  exact htm2
              · rw [List.mem_singleton] at hx
                rw [hx]
                refine ⟨d', ?_, hdPentself, ?_, ?_⟩
                · show aget (aset W2.depStore od _) did = some d'
                  rw [hvne did (Ne.symm hdidod)]
                  exact hW2d
                · show aget (adel W2.targetMap d0.owner) d'.owner = some did
                  rw [hdPowner, hvtm (t, k) (Ne.symm howner0).symm]
                  exact htm
                · rw [hdPowner]
                  exact List.mem_append_right _ (List.mem_singleton.mpr rfl)
            · intro x hx
              rw [heDsuf] at hx
              have hxod : od ≠ x := (List.pairwise_cons.mp hsn).1 x hx
              have hx' : x ∈ e.deps.drop e.depsLength := by
                rw [hsufcons]
                exact List.mem_cons_of_mem _ hx
              by_cases hxd : did = x
              · refine ⟨d', ?_⟩
                rw [← hxd]
                show aget (aset W2.depStore od _) did = some d'
                rw [hvne did (Ne.symm hdidod)]
                exact hW2d
              · obtain ⟨d2, hd2⟩ := hR.sufOk x hx'
                refine ⟨d2, ?_⟩
                show aget (aset W2.depStore od _) x = some d2
                rw [hvne x hxod, hW2ne x hxd]
                exact hd2
            · intro x dx t0 hdx hent
              by_cases hxod : od = x
              · subst hxod
                rw [hvod] at hdx
                cases hdx
                simp [aget] at hent
              · rw [hvne x hxod] at hdx
                by_cases hx : did = x
                · subst hx
                  rw [hW2d] at hdx
                  cases hdx
                  rw [hdPentself] at hent
                  have ht0 : t0 = e.trackId := by
                    injection hent with h
                    exact h.symm
                  constructor
                  · intro _
                    rw [heDpre]
                    exact List.mem_append_right _ (List.mem_singleton.mpr rfl)
                  · intro hne
                    exact absurd ht0 hne
                · rw [hW2ne x hx] at hdx
                  have hside := hR.entrySide x dx t0 hdx hent
                  constructor
                  · intro hcur
                    rw [heDpre]
                    exact List.mem_append_left _ (hside.1 hcur)
                  · intro hne
                    have hinsuf := hside.2 hne
                    rw [hsufcons] at hinsuf
                    rw [heDsuf]
                    rcases List.mem_cons.mp hinsuf with hcase | hcase
                    · exact absurd hcase.symm hxod
                    · exact hcase
            · intro tk0 htk0
              rcases List.mem_append.mp htk0 with htk0 | htk0
              · obtain ⟨x, h1, h2⟩ := hR.rsOk tk0 htk0
                have hslot : d0.owner ≠ tk0 := by
                  intro hc
                  rw [← hc, hpres0] at h1
                  have : od = x := by injection h1
                  rw [← this] at h2
                  exact hodnpre h2
                refine ⟨x, ?_, ?_⟩
                · show aget (adel W2.targetMap d0.owner) tk0 = some x
                  rw [hvtm tk0 hslot]
                  exact h1
                · rw [heDpre]
                  exact List.mem_append_left _ h2
              · rw [List.mem_singleton] at htk0
                subst htk0
                refine ⟨did, ?_, ?_⟩
                · show aget (adel W2.targetMap d0.owner) (t, k) = some did
                  rw [hvtm (t, k) howner0]
                  exact htm
                · rw [heDpre]
                  exact List.mem_append_right _ (List.mem_singleton.mpr rfl)

/-- `track` preserves the mid-run invariant: it either finds the
existing dep for `(t, k)` or allocates a fresh one, then calls
`trackEffect`. -/
theorem midInv_track (w : World) (eid t k : Nat) (rs : List (Nat × Nat))
    (hm : MidInv w eid rs) :
    MidInv (track w eid t k) eid (rs ++ [(t, k)]) := by
  obtain ⟨e, he, hR⟩ := hm.runE
  cases htm : aget w.targetMap (t, k) with
  | some did =>
    obtain ⟨d, hd, hown⟩ := hm.store.tmOk (t, k) did htm
    have heq : track w eid t k = trackEffect w eid did := by
      unfold track
      rw [htm]
    rw [heq]
    exact midInv_trackEffect w eid did t k rs e d
      (sinv_weaken did hm.store) hm.depO hm.othO he hR hd hown htm
  | none =>
    set dNew : Dep := { entries := [], owner := (t, k), cleanupCount := 0 }
      with hdNdef
    set W1 : World := { w with
      depStore := aset w.depStore w.nextDepId dNew,
      targetMap := aset w.targetMap (t, k) w.nextDepId,
      nextDepId := w.nextDepId + 1 } with hW1def
    have heq : track w eid t k = trackEffect W1 eid w.nextDepId := by
      unfold track
      rw [htm]
    rw [heq]
    have hW1d : aget W1.depStore w.nextDepId = some dNew := by
      rw [hW1def]
      exact aget_aset_self _ _ _
    have hW1ne : ∀ x, w.nextDepId ≠ x →
        aget W1.depStore x = aget w.depStore x := by
      intro x h
      rw [hW1def]
      exact aget_aset_ne _ _ _ _ h
    have hW1tms : aget W1.targetMap (t, k) = some w.nextDepId := by
      rw [hW1def]
      exact aget_aset_self _ _ _
    have hW1tmne : ∀ tk0, (t, k) ≠ tk0 →
        aget W1.targetMap tk0 = aget w.targetMap tk0 := by
      intro tk0 h
      rw [hW1def]
      exact aget_aset_ne _ _ _ _ h
    have hW1eff : aget W1.effects eid = some e := he
    have hfresh : aget w.depStore w.nextDepId = none :=
      hm.store.depFresh _ le_rfl
    have hslotval : ∀ tk0 x, aget w.targetMap tk0 = some x →
        w.nextDepId ≠ x := by
      intro tk0 x htk0 hc
      obtain ⟨dx, hdx, -⟩ := hm.store.tmOk tk0 x htk0
      rw [← hc, hfresh] at hdx
      exact Option.noConfusion hdx
    refine midInv_trackEffect W1 eid w.nextDepId t k rs e dNew ?_ ?_ ?_
      hW1eff ?_ hW1d rfl hW1tms
    · -- SInv W1 (some nextDepId)
      refine ⟨?_, hm.store.effFresh, ?_, ?_, ?_, ?_⟩
      · intro x hge
        have hge2 : w.nextDepId + 1 ≤ x := hge
        rw [hW1ne x (by omega)]
        exact hm.store.depFresh x (by omega)
      · intro tk0 x htk0
        by_cases htk : (t, k) = tk0
        · subst htk
          rw [hW1tms] at htk0
          have hx : w.nextDepId = x := Option.some.inj htk0
          rw [← hx]
          exact ⟨dNew, hW1d, rfl⟩
        · rw [hW1tmne tk0 htk] at htk0
          obtain ⟨dx, hdx, hox⟩ := hm.store.tmOk tk0 x htk0
          refine ⟨dx, ?_, hox⟩
          rw [hW1ne x (hslotval tk0 x htk0)]
          exact hdx
      · intro x dx hdx
        by_cases hxn : w.nextDepId = x
        · subst hxn
          rw [hW1d] at hdx
          cases hdx
          rw [hdNdef]
          simp [KeysDistinct]
        · rw [hW1ne x hxn] at hdx
          exact hm.store.depKeys x dx hdx
      · intro x dx hdx
        by_cases hxn : w.nextDepId = x
        · subst hxn
          rw [hW1d] at hdx
          cases hdx
          constructor
          · intro _
            rfl
          · intro habs
            exact absurd (show aget W1.targetMap dNew.owner
              = some w.nextDepId from hW1tms) habs
        · rw [hW1ne x hxn] at hdx
          have hcnt := hm.store.depCnt x dx hdx
          by_cases howx : (t, k) = dx.owner
          · constructor
            · intro hp
              rw [← howx, hW1tms] at hp
              exact absurd (Option.some.inj hp) hxn
            · intro _
              refine hcnt.2 ?_
              rw [← howx, htm]
              exact fun hc => Option.noConfusion hc
          · have htr : aget W1.targetMap dx.owner
                = aget w.targetMap dx.owner := hW1tmne dx.owner howx
            constructor
            · intro hp
              rw [htr] at hp
              exact hcnt.1 hp
            · intro habs
              rw [htr] at habs
              exact hcnt.2 habs
      · intro x dx hdx hp
        by_cases hxn : w.nextDepId = x
        · exact Or.inl (by rw [hxn])
        · rw [hW1ne x hxn] at hdx
          by_cases howx : (t, k) = dx.owner
          · rw [← howx, hW1tms] at hp
            exact absurd (Option.some.inj hp) hxn
          · rw [hW1tmne dx.owner howx] at hp
            rcases hm.store.depNE x dx hdx hp with hweak | hne
            · exact absurd hweak (fun hc => Option.noConfusion hc)
            · exact Or.inr hne
    · -- DepOthers W1
      intro x dx hdx i t0 hent hnei
      by_cases hxn : w.nextDepId = x
      · subst hxn
        rw [hW1d] at hdx
        cases hdx
        exfalso
        have hent2 : aget ([] : List (Nat × Nat)) i = some t0 := hent
        simp [aget] at hent2
      · rw [hW1ne x hxn] at hdx
        exact hm.depO x dx hdx i t0 hent hnei
    · -- OthersOk W1
      intro i e2 he2 hnei
      have he2' : aget w.effects i = some e2 := he2
      obtain ⟨h1, h2, h3, h4⟩ := hm.othO i e2 he2' hnei
      refine ⟨h1, h2, ?_, h4⟩
      intro x hmem
      obtain ⟨dx, hdx, hentx⟩ := h3 x hmem
      have hxn : w.nextDepId ≠ x := by
        intro hc
        rw [← hc, hfresh] at hdx
        exact Option.noConfusion hdx
      refine ⟨dx, ?_, hentx⟩
      rw [hW1ne x hxn]
      exact hdx
    · -- RunInv W1
      refine ⟨hR.act, hR.dlen, hR.preNodup, hR.sufNodup, ?_, ?_, ?_, ?_⟩
      · intro x hx
        obtain ⟨d2, hd2, hent2, htm2, hrs2⟩ := hR.preOk x hx
        have hxn : w.nextDepId ≠ x := by
          intro hc
          rw [← hc, hfresh] at hd2
          exact Option.noConfusion hd2
        have howx : (t, k) ≠ d2.owner := by
          intro hc
          rw [← hc, htm] at htm2
          exact Option.noConfusion htm2
        refine ⟨d2, ?_, hent2, ?_, hrs2⟩
        · rw [hW1ne x hxn]
          exact hd2
        · rw [hW1tmne d2.owner howx]
          exact htm2
      · intro x hx
        obtain ⟨d2, hd2⟩ := hR.sufOk x hx
        have hxn : w.nextDepId ≠ x := by
          intro hc
          rw [← hc, hfresh] at hd2
          exact Option.noConfusion hd2
        refine ⟨d2, ?_⟩
        rw [hW1ne x hxn]
        exact hd2
      · intro x dx t0 hdx hent
        by_cases hxn : w.nextDepId = x
        · subst hxn
          rw [hW1d] at hdx
          cases hdx
          exfalso
          have hent2 : aget ([] : List (Nat × Nat)) eid = some t0 := hent
          simp [aget] at hent2
        · rw [hW1ne x hxn] at hdx
          exact hR.entrySide x dx t0 hdx hent
      · intro tk0 htk0
        obtain ⟨x, h1, h2⟩ := hR.rsOk tk0 htk0
        have howx : (t, k) ≠ tk0 := by
          intro hc
          rw [← hc, htm] at h1
          exact Option.noConfusion h1
        refine ⟨x, ?_, h2⟩
        rw [hW1tmne tk0 howx]
        exact h1

theorem midInv_tracks (eid : Nat) : ∀ (reads : List (Nat × Nat))
    (w : World) (rs : List (Nat × Nat)), MidInv w eid rs →
    MidInv (reads.foldl (fun acc r => track acc eid r.1 r.2) w) eid
      (rs ++ reads)
  | [], w, rs, hm => by simpa using hm
  | r :: rest, w, rs, hm => by
    simp only [List.foldl_cons]
    have h1 := midInv_track w eid r.1 r.2 rs hm
    have h2 := midInv_tracks eid rest (track w eid r.1 r.2) (rs ++ [r]) h1
    rw [List.append_assoc] at h2
    exact h2

/-! ### `postCleanupEffect` restores the quiescent invariant -/

/-- Loop invariant of the `for` loop of `postCleanupEffect`: `rest` is
the part of the stale tail not yet processed; stale entries for `eid`
survive only in deps listed in `rest`. -/
structure FoldInv (w : World) (eid : Nat) (rs : List (Nat × Nat))
    (e : Effect) (rest : List Nat) : Prop where
  store : SInv w none
  depO : DepOthers w eid
  othO : OthersOk w eid
  eff : aget w.effects eid = some e
  restNodup : rest.Pairwise (fun a b => a ≠ b)
  restOk : ∀ did ∈ rest, ∃ d, aget w.depStore did = some d
  preOk : ∀ did ∈ e.deps.take e.depsLength, ∃ d,
    aget w.depStore did = some d ∧ aget d.entries eid = some e.trackId ∧
    aget w.targetMap d.owner = some did ∧ d.owner ∈ rs
  entrySide : ∀ did d t0, aget w.depStore did = some d →
    aget d.entries eid = some t0 →
    (t0 = e.trackId → did ∈ e.deps.take e.depsLength) ∧
    (t0 ≠ e.trackId → did ∈ rest)
  rsOk : ∀ tk ∈ rs, ∃ did, aget w.targetMap tk = some did ∧
    did ∈ e.deps.take e.depsLength

theorem foldInv_step (w : World) (eid : Nat) (rs : List (Nat × Nat))
    (e : Effect) (od : Nat) (rest : List Nat)
    (hf : FoldInv w eid rs e (od :: rest)) :
    FoldInv (cleanupDepEffect w od eid) eid rs e rest := by
  have he := hf.eff
  have hodnotin : od ∉ rest := fun hmem =>
    (List.pairwise_cons.mp hf.restNodup).1 od hmem rfl
  rcases cleanupDepEffect_cases w od eid e he with ⟨heq, hallcur⟩ |
    ⟨d0, t0x, hd0, hent0, hstale, hbr⟩
  · rw [heq]
    refine ⟨hf.store, hf.depO, hf.othO, hf.eff,
      (List.pairwise_cons.mp hf.restNodup).2,
      fun did hm => hf.restOk did (List.mem_cons_of_mem _ hm),
      hf.preOk, ?_, hf.rsOk⟩
    intro did d t0 hd hent
    have hside := hf.entrySide did d t0 hd hent
    refine ⟨hside.1, fun hne => ?_⟩
    rcases List.mem_cons.mp (hside.2 hne) with hcase | hcase
    · exfalso
      rw [hcase] at hd
      exact hne (hallcur d t0 hd hent)
    · exact hcase
  · have hodpre : od ∉ e.deps.take e.depsLength := by
      intro hmem
      obtain ⟨d2, hd2, hent2, -, -⟩ := hf.preOk od hmem
      rw [hd0] at hd2
      cases hd2
      rw [hent0] at hent2
      exact hstale (Option.some.inj hent2)
    have hd0ne : d0.entries ≠ [] := by
      intro hc
      rw [hc] at hent0
      simp [aget] at hent0
    have hpres0 : aget w.targetMap d0.owner = some od := by
      by_cases hp : aget w.targetMap d0.owner = some od
      · exact hp
      · exact absurd ((hf.store.depCnt od d0 hd0).2 hp).1 hd0ne
    have hsinv' := @cde_sinv w od eid e he hf.store
    have hdo' := @cde_depOthers w od eid e he hf.depO
    have hoo' := @cde_othersOk w od eid e he hf.othO
    have heff' : aget (cleanupDepEffect w od eid).effects eid = some e := by
      rw [cleanupDepEffect_effects]
      exact he
    have hprefix_owner : ∀ x ∈ e.deps.take e.depsLength, ∀ d2,
        aget w.depStore x = some d2 → d2.owner ≠ d0.owner := by
      intro x hx d2 hd2 hc
      obtain ⟨d3, hd3, -, htm3, -⟩ := hf.preOk x hx
      rw [hd2] at hd3
      cases hd3
      rw [hc, hpres0] at htm3
      have hox : od = x := Option.some.inj htm3
      rw [← hox] at hx
      exact hodpre hx
    rcases hbr with ⟨hnnil, heq⟩ | ⟨hnil, heq⟩
    · refine ⟨hsinv', hdo', hoo', heff',
        (List.pairwise_cons.mp hf.restNodup).2, ?_, ?_, ?_, ?_⟩
      · intro did hm
        have hdidod : od ≠ did := fun hc => hodnotin (hc ▸ hm)
        obtain ⟨d2, hd2⟩ := hf.restOk did (List.mem_cons_of_mem _ hm)
        rw [heq]
        refine ⟨d2, ?_⟩
        rw [aget_setDep_ne _ _ _ _ hdidod]
        exact hd2
      · intro x hx
        have hxod : od ≠ x := fun hc => hodpre (hc ▸ hx)
        obtain ⟨d2, hd2, hent2, htm2, hrs2⟩ := hf.preOk x hx
        rw [heq]
        exact ⟨d2, by rw [aget_setDep_ne _ _ _ _ hxod]; exact hd2, hent2,
          htm2, hrs2⟩
      · intro x dx t0 hdx hent
        rw [heq] at hdx
        by_cases hxod : od = x
        · rw [← hxod, aget_setDep_self] at hdx
          cases hdx
          exfalso
          have hent2 : aget (adel d0.entries eid) eid = some t0 := hent
          rw [aget_adel_self] at hent2
          exact Option.noConfusion hent2
        · rw [aget_setDep_ne _ _ _ _ hxod] at hdx
          have hside := hf.entrySide x dx t0 hdx hent
          refine ⟨hside.1, fun hne => ?_⟩
          rcases List.mem_cons.mp (hside.2 hne) with hcase | hcase
          · exact absurd hcase.symm hxod
          · exact hcase
      · intro tk hm
        obtain ⟨x, h1, h2⟩ := hf.rsOk tk hm
        rw [heq]
        exact ⟨x, h1, h2⟩
    · refine ⟨hsinv', hdo', hoo', heff',
        (List.pairwise_cons.mp hf.restNodup).2, ?_, ?_, ?_, ?_⟩
      · intro did hm
        have hdidod : od ≠ did := fun hc => hodnotin (hc ▸ hm)
        obtain ⟨d2, hd2⟩ := hf.restOk did (List.mem_cons_of_mem _ hm)
        rw [heq]
        refine ⟨d2, ?_⟩
        show aget (aset w.depStore od _) did = some d2
        rw [aget_aset_ne _ _ _ _ hdidod]
        exact hd2
      · intro x hx
        have hxod : od ≠ x := fun hc => hodpre (hc ▸ hx)
        obtain ⟨d2, hd2, hent2, htm2, hrs2⟩ := hf.preOk x hx
        rw [heq]
        refine ⟨d2, ?_, hent2, ?_, hrs2⟩
        · show aget (aset w.depStore od _) x = some d2
          rw [aget_aset_ne _ _ _ _ hxod]
          exact hd2
        · show aget (adel w.targetMap d0.owner) d2.owner = some x
          rw [aget_adel_ne _ _ _
            (fun hc => hprefix_owner x hx d2 hd2 hc.symm)]
          exact htm2
      · intro x dx t0 hdx hent
        rw [heq] at hdx
        have hdx' : aget (aset w.depStore od
            { entries := [], owner := d0.owner,
              cleanupCount := d0.cleanupCount + 1 }) x = some dx := hdx
        by_cases hxod : od = x
        · rw [← hxod, aget_aset_self] at hdx'
          cases hdx'
          exfalso
          have hent2 : aget ([] : List (Nat × Nat)) eid = some t0 := hent
          simp [aget] at hent2
        · rw [aget_aset_ne _ _ _ _ hxod] at hdx'
          have hside := hf.entrySide x dx t0 hdx' hent
          refine ⟨hside.1, fun hne => ?_⟩
          rcases List.mem_cons.mp (hside.2 hne) with hcase | hcase
          · exact absurd hcase.symm hxod
          · exact hcase
      · intro tk hm
        obtain ⟨x, h1, h2⟩ := hf.rsOk tk hm
        have hslot : d0.owner ≠ tk := by
          intro hc
          rw [← hc, hpres0] at h1
          have hox : od = x := Option.some.inj h1
          rw [← hox] at h2
          exact hodpre h2
        rw [heq]
        refine ⟨x, ?_, h2⟩
        show aget (adel w.targetMap d0.owner) tk = some x
        rw [aget_adel_ne _ _ _ hslot]
        exact h1

theorem foldInv_fold (eid : Nat) (rs : List (Nat × Nat)) (e : Effect) :
    ∀ (rest : List Nat) (w : World), FoldInv w eid rs e rest →
    FoldInv (rest.foldl (fun acc did => cleanupDepEffect acc did eid) w)
      eid rs e []
  | [], _, hf => hf
  | od :: rest, w, hf => by
    simp only [List.foldl_cons]
    exact foldInv_fold eid rs e rest _ (foldInv_step w eid rs e od rest hf)

theorem midInv_postCleanup (w : World) (eid : Nat) (rs : List (Nat × Nat))
    (hm : MidInv w eid rs) : PostInv (postCleanupEffect w eid) eid rs := by
  obtain ⟨e, he, hR⟩ := hm.runE
  by_cases hlen : e.depsLength < e.deps.length
  · have hf0 : FoldInv w eid rs e (e.deps.drop e.depsLength) :=
      ⟨hm.store, hm.depO, hm.othO, he, hR.sufNodup, hR.sufOk, hR.preOk,
        hR.entrySide, hR.rsOk⟩
    have hf1 := foldInv_fold eid rs e (e.deps.drop e.depsLength) w hf0
    have heff1 : aget ((e.deps.drop e.depsLength).foldl
        (fun acc did => cleanupDepEffect acc did eid) w).effects eid
        = some e := by
      rw [cleanups_effects]
      exact he
    have heq : postCleanupEffect w eid
        = setEff ((e.deps.drop e.depsLength).foldl
            (fun acc did => cleanupDepEffect acc did eid) w) eid
            { e with deps := e.deps.take e.depsLength } := by
      unfold postCleanupEffect
      rw [he]
      dsimp only
      rw [if_pos hlen]
      rw [heff1]
    rw [heq]
    set W1 := (e.deps.drop e.depsLength).foldl
      (fun acc did => cleanupDepEffect acc did eid) w with hW1def
    have hdl := hR.dlen
    refine ⟨⟨⟨hf1.store.depFresh, ?_, hf1.store.tmOk, hf1.store.depKeys,
      hf1.store.depCnt, hf1.store.depNE⟩, ?_, ?_⟩,
      { e with deps := e.deps.take e.depsLength },
      aget_setEff_self _ _ _, ?_, ?_, ?_⟩
    · intro i hge
      have hge2 : W1.nextEffectId ≤ i := hge
      have heidlt : ¬ W1.nextEffectId ≤ eid := fun hge3 => by
        rw [hf1.store.effFresh eid hge3] at heff1
        exact Option.noConfusion heff1
      rw [aget_setEff_ne _ _ _ _ (by omega)]
      exact hf1.store.effFresh i hge2
    · intro did d hd i t0 hent
      by_cases hni : i = eid
      · subst hni
        have hside := hf1.entrySide did d t0 hd hent
        by_cases hcur : t0 = e.trackId
        · exact ⟨{ e with deps := e.deps.take e.depsLength },
            aget_setEff_self _ _ _, hcur, hside.1 hcur⟩
        · exfalso
          have hmem := hside.2 hcur
          simp at hmem
      · obtain ⟨e2, he2, ht, hmem⟩ := hf1.depO did d hd i t0 hent hni
        exact ⟨e2, by rw [aget_setEff_ne _ _ _ _ (Ne.symm hni)]; exact he2,
          ht, hmem⟩
    · intro i e2 he2
      by_cases hni : i = eid
      · subst hni
        rw [aget_setEff_self] at he2
        cases he2
        refine ⟨?_, hR.preNodup, ?_, ?_⟩
        · show e.depsLength = (e.deps.take e.depsLength).length
          rw [List.length_take]
          omega
        · intro did hmem
          obtain ⟨d, hd, hent, -, -⟩ := hf1.preOk did hmem
          exact ⟨d, hd, hent⟩
        · intro hc
          exfalso
          have hc2 : e.active = false := hc
          rw [hR.act] at hc2
          exact Bool.noConfusion hc2
      · rw [aget_setEff_ne _ _ _ _ (Ne.symm hni)] at he2
        exact hf1.othO i e2 he2 hni
    · intro did hmem
      obtain ⟨d, hd, hent, htm2, hrs2⟩ := hf1.preOk did hmem
      exact ⟨d, hd, hent, htm2, hrs2⟩
    · intro tk htk
      obtain ⟨did, h1, h2⟩ := hf1.rsOk tk htk
      exact ⟨did, h1, h2⟩
    · intro did d t0 hd hent
      have hside := hf1.entrySide did d t0 hd hent
      by_cases hcur : t0 = e.trackId
      · exact ⟨hside.1 hcur, hcur⟩
      · exfalso
        have hmem := hside.2 hcur
        simp at hmem
  · have heq : postCleanupEffect w eid = w := by
      unfold postCleanupEffect
      rw [he]
      dsimp only
      rw [if_neg hlen]
    rw [heq]
    have hdleq : e.depsLength = e.deps.length :=
      Nat.le_antisymm hR.dlen (by omega)
    have hpreeq : e.deps.take e.depsLength = e.deps := by
      rw [hdleq, List.take_length]
    have hsufeq : e.deps.drop e.depsLength = [] := by
      rw [hdleq, List.drop_length]
    refine ⟨⟨hm.store, ?_, ?_⟩, e, he, ?_, ?_, ?_⟩
    · intro did d hd i t0 hent
      by_cases hni : i = eid
      · subst hni
        have hside := hR.entrySide did d t0 hd hent
        by_cases hcur : t0 = e.trackId
        · refine ⟨e, he, hcur, ?_⟩
          rw [← hpreeq]
          exact hside.1 hcur
        · exfalso
          have hmem := hside.2 hcur
          rw [hsufeq] at hmem
          simp at hmem
      · exact hm.depO did d hd i t0 hent hni
    · intro i e2 he2
      by_cases hni : i = eid
      · subst hni
        rw [he] at he2
        cases he2
        refine ⟨hdleq, ?_, ?_, ?_⟩
        · have hpn := hR.preNodup
          rw [hpreeq] at hpn
          exact hpn
        · intro did hmem
          rw [← hpreeq] at hmem
          obtain ⟨d, hd, hent, -, -⟩ := hR.preOk did hmem
          exact ⟨d, hd, hent⟩
        · intro hc
          rw [hR.act] at hc
          exact Bool.noConfusion hc
      · exact hm.othO i e2 he2 hni
    · intro did hmem
      rw [← hpreeq] at hmem
      exact hR.preOk did hmem
    · intro tk htk
      obtain ⟨did, h1, h2⟩ := hR.rsOk tk htk
      rw [hpreeq] at h2
      exact ⟨did, h1, h2⟩
    · intro did d t0 hd hent
      have hside := hR.entrySide did d t0 hd hent
      by_cases hcur : t0 = e.trackId
      · refine ⟨?_, hcur⟩
        rw [← hpreeq]
        exact hside.1 hcur
      · exfalso
        have hmem := hside.2 hcur
        rw [hsufeq] at hmem
        simp at hmem

/-! ### The quiescent invariant holds on every reachable world -/

theorem inv_setEff_compat {w : World} {eid : Nat} {e : Effect} (hi : Inv w)
    (he : aget w.effects eid = some e) (e' : Effect)
    (hdeps : e'.deps = e.deps) (hdl : e'.depsLength = e.depsLength)
    (htid : e'.trackId = e.trackId) (hact : e'.active = e.active) :
    Inv (setEff w eid e') := by
  have heidlt : ¬ w.nextEffectId ≤ eid := fun hge => by
    rw [hi.store.effFresh eid hge] at he
    exact Option.noConfusion he
  refine ⟨⟨hi.store.depFresh, ?_, hi.store.tmOk, hi.store.depKeys,
    hi.store.depCnt, hi.store.depNE⟩, ?_, ?_⟩
  · intro i hge
    have hge2 : w.nextEffectId ≤ i := hge
    rw [aget_setEff_ne _ _ _ _ (by omega)]
    exact hi.store.effFresh i hge2
  · intro did d hd i t0 hent
    obtain ⟨e2, he2, ht, hmem⟩ := hi.depE did d hd i t0 hent
    by_cases hni : i = eid
    · subst hni
      rw [he] at he2
      cases he2
      refine ⟨e', aget_setEff_self _ _ _, ?_, ?_⟩
      · rw [htid]
        exact ht
      · rw [hdeps]
        exact hmem
    · refine ⟨e2, ?_, ht, hmem⟩
      rw [aget_setEff_ne _ _ _ _ (Ne.symm hni)]
      exact he2
  · intro i e2 he2
    by_cases hni : i = eid
    · subst hni
      rw [aget_setEff_self] at he2
      cases he2
      obtain ⟨h1, h2, h3, h4⟩ := hi.effOk i e he
      refine ⟨by rw [hdl, hdeps]; exact h1, by rw [hdeps]; exact h2, ?_, ?_⟩
      · intro did hmem
        rw [hdeps] at hmem
        obtain ⟨d, hd, hent⟩ := h3 did hmem
        refine ⟨d, hd, ?_⟩
        rw [htid]
        exact hent
      · intro hc
        rw [hact] at hc
        rw [hdeps]
        exact h4 hc
    · rw [aget_setEff_ne _ _ _ _ (Ne.symm hni)] at he2
      exact hi.effOk i e2 he2

/-- A full active run of `eid` with reads `reads` reaches the
post-cleanup state described by `PostInv`. -/
theorem runEffect_post (w : World) (eid : Nat) (e : Effect)
    (reads : List (Nat × Nat)) (hi : Inv w)
    (he : aget w.effects eid = some e) (ha : e.active = true) :
    PostInv (runEffect w eid reads) eid reads := by
  have heq : runEffect w eid reads
      = postCleanupEffect (reads.foldl (fun acc r => track acc eid r.1 r.2)
          (preCleanupEffect
            (setEff w eid { e with dirtyLevel := NotDirty }) eid)) eid := by
    unfold runEffect
    rw [he]
    dsimp only
    rw [ha, if_pos rfl]
  rw [heq]
  have hi0 : Inv (setEff w eid { e with dirtyLevel := NotDirty }) :=
    inv_setEff_compat hi he _ rfl rfl rfl rfl
  have he0 : aget (setEff w eid
      { e with dirtyLevel := NotDirty }).effects eid
      = some { e with dirtyLevel := NotDirty } := aget_setEff_self _ _ _
  have hm1 : MidInv (preCleanupEffect
      (setEff w eid { e with dirtyLevel := NotDirty }) eid) eid [] :=
    inv_preCleanup hi0 he0 ha
  have hm2 := midInv_tracks eid reads _ [] hm1
  rw [List.nil_append] at hm2
  exact midInv_postCleanup _ eid reads hm2

theorem inv_runEffect {w : World} (eid : Nat) (reads : List (Nat × Nat))
    (hi : Inv w) : Inv (runEffect w eid reads) := by
  cases he : aget w.effects eid with
  | none =>
    have heq : runEffect w eid reads = w := by
      unfold runEffect
      rw [he]
    rw [heq]
    exact hi
  | some e =>
    cases ha : e.active with
    | true => exact (runEffect_post w eid e reads hi he ha).inv
    | false =>
      have heq : runEffect w eid reads
          = setEff w eid { e with dirtyLevel := NotDirty } := by
        unfold runEffect
        rw [he]
        dsimp only
        rw [ha]
        simp
      rw [heq]
      exact inv_setEff_compat hi he _ rfl rfl rfl rfl

theorem inv_stopEffect {w : World} (eid : Nat) (hi : Inv w) :
    Inv (stopEffect w eid) := by
  cases he : aget w.effects eid with
  | none =>
    have heq : stopEffect w eid = w := by
      unfold stopEffect
      rw [he]
    rw [heq]
    exact hi
  | some e =>
    cases ha : e.active with
    | false =>
      rw [stop_noop w eid e he ha]
      exact hi
    | true =>
      have hm1 : MidInv (preCleanupEffect w eid) eid [] :=
        inv_preCleanup hi he ha
      have hp := midInv_postCleanup _ eid [] hm1
      obtain ⟨e2, he2, hdeps2, -, hent2⟩ := hp.runE
      have hdepsnil : e2.deps = [] := by
        cases hd : e2.deps with
        | nil => rfl
        | cons a l =>
          exfalso
          have hmem : a ∈ e2.deps := by
            rw [hd]
            exact List.mem_cons_self _ _
          obtain ⟨d, -, -, -, hrs⟩ := hdeps2 a hmem
          simp at hrs
      have heq : stopEffect w eid
          = setEff (postCleanupEffect (preCleanupEffect w eid) eid) eid
              { e2 with onStopCount := e2.onStopCount + 1,
                        active := false } := by
        unfold stopEffect
        rw [he]
        dsimp only
        rw [ha, if_pos rfl]
        rw [he2]
      rw [heq]
      have hi2 : Inv (postCleanupEffect (preCleanupEffect w eid) eid) :=
        hp.inv
      have heidlt : ¬ (postCleanupEffect
          (preCleanupEffect w eid) eid).nextEffectId ≤ eid := fun hge => by
        rw [hi2.store.effFresh eid hge] at he2
        exact Option.noConfusion he2
      refine ⟨⟨hi2.store.depFresh, ?_, hi2.store.tmOk, hi2.store.depKeys,
        hi2.store.depCnt, hi2.store.depNE⟩, ?_, ?_⟩
      · intro i hge
        have hge2 : (postCleanupEffect
            (preCleanupEffect w eid) eid).nextEffectId ≤ i := hge
        rw [aget_setEff_ne _ _ _ _ (by omega)]
        exact hi2.store.effFresh i hge2
      · intro did d hd i t0 hent
        by_cases hni : i = eid
        · subst hni
          exfalso
          obtain ⟨hmem, -⟩ := hent2 did d t0 hd hent
          rw [hdepsnil] at hmem
          simp at hmem
        · obtain ⟨e3, he3, ht, hmem⟩ := hi2.depE did d hd i t0 hent
          have hnieid : i ≠ eid := hni
          refine ⟨e3, ?_, ht, hmem⟩
          rw [aget_setEff_ne _ _ _ _ (Ne.symm hnieid)]
          exact he3
      · intro i e3 he3
        by_cases hni : i = eid
        · subst hni
          rw [aget_setEff_self] at he3
          cases he3
          obtain ⟨h1, -, -, -⟩ := hi2.effOk i e2 he2
          refine ⟨?_, ?_, ?_, ?_⟩
          · show e2.depsLength = e2.deps.length
            exact h1
          · show e2.deps.Pairwise _
            rw [hdepsnil]
            exact List.Pairwise.nil
          · intro did hmem
            have hmem2 : did ∈ e2.deps := hmem
            rw [hdepsnil] at hmem2
            simp at hmem2
          · intro _
            show e2.deps = []
            exact hdepsnil
        · rw [aget_setEff_ne _ _ _ _ (Ne.symm hni)] at he3
          exact hi2.effOk i e3 he3

/-- Every reachable world satisfies the quiescent heap invariant. -/
theorem reach_inv {w : World} (hr : Reach w) : Inv w := by
  induction hr with
  | init => exact inv_init
  | step w op hr ih =>
    cases op with
    | newEff => exact inv_newEffect ih
    | run eid reads => exact inv_runEffect eid reads ih
    | stop eid => exact inv_stopEffect eid ih

/-! ### The claims about the reactivity core -/

/-- C1.  Edge deduplication: after a single run of an active effect
whose `fn` reads the property `(t, k)` any number of times (each read
calling `track`, hence `trackEffect`), the Dep for `(t, k)` contains
the effect exactly once — its entry table holds exactly one entry keyed
by the effect — because `trackEffect` returns early when
`dep.get(effect)` already equals the effect's current `_trackId`. -/
theorem edge_dedup_spec (w : World) (eid : Nat) (e : Effect)
    (reads : List (Nat × Nat)) (t k : Nat) (hr : Reach w)
    (he : aget w.effects eid = some e) (hact : e.active = true)
    (hin : (t, k) ∈ reads) :
    ∃ did d, aget (runEffect w eid reads).targetMap (t, k) = some did ∧
      aget (runEffect w eid reads).depStore did = some d ∧
      (d.entries.filter (fun p => p.1 == eid)).length = 1 := by
  have hp := runEffect_post w eid e reads (reach_inv hr) he hact
  obtain ⟨e', he', hpre, hrs, hent⟩ := hp.runE
  obtain ⟨did, htm', hmem⟩ := hrs (t, k) hin
  obtain ⟨d, hd, hentd, -, -⟩ := hpre did hmem
  exact ⟨did, d, htm', hd,
    filter_count_one (hp.inv.store.depKeys did d hd) hentd⟩

theorem edge_dedup_spec_witness :
    ∃ did d,
      aget (runEffect (newEffect initWorld) 0
        [(1, 2), (1, 2), (1, 2)]).targetMap (1, 2) = some did ∧
      aget (runEffect (newEffect initWorld) 0
        [(1, 2), (1, 2), (1, 2)]).depStore did = some d ∧
      (d.entries.filter (fun p => p.1 == 0)).length = 1 :=
  edge_dedup_spec (newEffect initWorld) 0
    { active := true, deps := [], depsLength := 0, trackId := 0,
      dirtyLevel := Dirty, onStopCount := 0 } [(1, 2), (1, 2), (1, 2)] 1 2
    (Reach.step initWorld WOp.newEff Reach.init) (by decide) (by decide)
    (by decide)

/-- C2.  No stale edges: after a completed run of an active effect that
did not read `(t, k)` — whether or not prior runs did — no dep owned by
`(t, k)` still holds an entry for the effect (the `finally` cleanup of
`ReactiveEffect.run` removed it), and the effect's `deps` array no
longer references any dep owned by `(t, k)`. -/
theorem no_stale_edges_spec (w : World) (eid : Nat) (e : Effect)
    (reads : List (Nat × Nat)) (t k : Nat) (hr : Reach w)
    (he : aget w.effects eid = some e) (hact : e.active = true)
    (hout : (t, k) ∉ reads) :
    (∀ did d, aget (runEffect w eid reads).depStore did = some d →
      d.owner = (t, k) → aget d.entries eid = none) ∧
    (∀ e2, aget (runEffect w eid reads).effects eid = some e2 →
      ∀ did ∈ e2.deps, ∀ d,
        aget (runEffect w eid reads).depStore did = some d →
        d.owner ≠ (t, k)) := by
  have hp := runEffect_post w eid e reads (reach_inv hr) he hact
  obtain ⟨e', he', hpre, hrs, hent⟩ := hp.runE
  constructor
  · intro did d hd hown
    cases hentq : aget d.entries eid with
    | none => rfl
    | some t0 =>
      exfalso
      obtain ⟨hmem, -⟩ := hent did d t0 hd hentq
      obtain ⟨d2, hd2, -, -, hrs2⟩ := hpre did hmem
      rw [hd] at hd2
      cases hd2
      rw [hown] at hrs2
      exact hout hrs2
  · intro e2 he2 did hmem d hd hown
    rw [he'] at he2
    cases he2
    obtain ⟨d2, hd2, -, -, hrs2⟩ := hpre did hmem
    rw [hd] at hd2
    cases hd2
    rw [hown] at hrs2
    exact hout hrs2

theorem no_stale_edges_spec_witness :
    (∀ did d,
      aget (runEffect (runEffect (newEffect initWorld) 0 [(1, 2)]) 0
        [(3, 4)]).depStore did = some d →
      d.owner = (1, 2) → aget d.entries 0 = none) ∧
    (∀ e2,
      aget (runEffect (runEffect (newEffect initWorld) 0 [(1, 2)]) 0
        [(3, 4)]).effects 0 = some e2 →
      ∀ did ∈ e2.deps, ∀ d,
        aget (runEffect (runEffect (newEffect initWorld) 0 [(1, 2)]) 0
          [(3, 4)]).depStore did = some d →
        d.owner ≠ (1, 2)) :=
  no_stale_edges_spec (runEffect (newEffect initWorld) 0 [(1, 2)]) 0
    { active := true, deps := [0], depsLength := 1, trackId := 1,
      dirtyLevel := 0, onStopCount := 0 } [(3, 4)] 1 2
    (Reach.step (newEffect initWorld) (WOp.run 0 [(1, 2)])
      (Reach.step initWorld WOp.newEff Reach.init))
    (by decide) (by decide) (by decide)

/-- C3.  Empty-Dep cleanup: on every reachable heap, a dep is present
in the target map exactly when it is non-empty, a dep that became empty
has had its cleanup closure (which deletes its `(target, key)` slot)
invoked exactly once, and a non-empty dep has never been cleaned up. -/
theorem empty_dep_cleanup_spec (w : World) (hr : Reach w) :
    ∀ did d, aget w.depStore did = some d →
      ((∃ tk, aget w.targetMap tk = some did) ↔ d.entries ≠ []) ∧
      (d.entries = [] → d.cleanupCount = 1) ∧
      (d.entries ≠ [] → d.cleanupCount = 0) := by
  have hi := reach_inv hr
  intro did d hd
  have hcnt := hi.store.depCnt did d hd
  have hne := hi.store.depNE did d hd
  refine ⟨⟨?_, ?_⟩, ?_, ?_⟩
  · rintro ⟨tk, htk⟩
    obtain ⟨d2, hd2, hown⟩ := hi.store.tmOk tk did htk
    rw [hd] at hd2
    cases hd2
    have hp : aget w.targetMap d.owner = some did := by
      rw [hown]
      exact htk
    rcases hne hp with hweak | hne2
    · exact absurd hweak (fun hc => Option.noConfusion hc)
    · exact hne2
  · intro hne2
    by_cases hp : aget w.targetMap d.owner = some did
    · exact ⟨d.owner, hp⟩
    · exact absurd (hcnt.2 hp).1 hne2
  · intro hnil
    by_cases hp : aget w.targetMap d.owner = some did
    · rcases hne hp with hweak | hne2
      · exact absurd hweak (fun hc => Option.noConfusion hc)
      · exact absurd hnil hne2
    · exact (hcnt.2 hp).2
  · intro hne2
    by_cases hp : aget w.targetMap d.owner = some did
    · exact hcnt.1 hp
    · exact absurd (hcnt.2 hp).1 hne2

theorem empty_dep_cleanup_spec_witness :
    ((∃ tk,
      aget (runEffect (runEffect (newEffect initWorld) 0 [(1, 2)]) 0
        [(3, 4)]).targetMap tk = some 0) ↔
      ({ entries := [], owner := (1, 2), cleanupCount := 1 } : Dep).entries
        ≠ []) ∧
    (({ entries := [], owner := (1, 2), cleanupCount := 1 } : Dep).entries
        = [] →
      ({ entries := [], owner := (1, 2), cleanupCount := 1 } :
        Dep).cleanupCount = 1) ∧
    (({ entries := [], owner := (1, 2), cleanupCount := 1 } : Dep).entries
        ≠ [] →
      ({ entries := [], owner := (1, 2), cleanupCount := 1 } :
        Dep).cleanupCount = 0) :=
  empty_dep_cleanup_spec
    (runEffect (runEffect (newEffect initWorld) 0 [(1, 2)]) 0 [(3, 4)])
    (Reach.step (runEffect (newEffect initWorld) 0 [(1, 2)])
      (WOp.run 0 [(3, 4)])
      (Reach.step (newEffect initWorld) (WOp.run 0 [(1, 2)])
        (Reach.step initWorld WOp.newEff Reach.init)))
    0 { entries := [], owner := (1, 2), cleanupCount := 1 } (by decide)

end VueCore
